import Mathlib

/-!
# Verification of the arbitrary-precision unsigned integer `UInt` of `EncryptionRSA`

This file shallowly embeds the C++ big-integer struct `UInt` (file `1.cpp`) in
Lean 4.  A `UInt` stores its value as `std::vector<int64_t> digits`, little
endian, in radix `BASE = 10^9`; we model the digit vector as `List ℕ` (every
digit of a well-formed `UInt` lies in `[0, BASE)`, and the C++ arithmetics
never overflow `int64_t` on such digits, so `ℕ` digits are faithful).

Every definition mirrors one C++ function; the doc comment of a definition
names the function it embeds and explains the few places where a C++ idiom
(in-place mutation, `while` loops, overload dispatch) is rendered functionally.
-/

set_option maxRecDepth 4000

namespace BigU

/-- `UInt::BASE = (int64_t)1e9`, the radix of the digit representation. -/
def BASE : ℕ := 1000000000

/-- Numeric value of a little-endian digit list (the abstraction function for
the `digits` vector of a `UInt`). -/
def val : List ℕ → ℕ
  | [] => 0
  | d :: rest => d + BASE * val rest

/-- Numeric value of a big-endian digit list (most significant digit first);
used to reason about the loops that scan `digits` from the back. -/
def valBE : List ℕ → ℕ
  | [] => 0
  | d :: rest => d * BASE ^ rest.length + valBE rest

/-- The digit-emitting do-while loop of the constructor `UInt::UInt(int64_t)`:
`do { digits.push_back(number % BASE); number /= BASE; } while (number > 0);`.
The first argument is fuel; `n` itself is always enough fuel, since the loop
runs at most `n` times (each iteration divides `number` by `BASE ≥ 2`). -/
def toDigitsF : ℕ → ℕ → List ℕ
  | 0, n => [n % BASE]
  | f + 1, n => if n / BASE = 0 then [n % BASE] else n % BASE :: toDigitsF f (n / BASE)

/-- Digit list produced by the loop of `UInt::UInt(int64_t)` for value `n`. -/
def toDigits (n : ℕ) : List ℕ := toDigitsF n n

/-- The leading-zero stripping of `UInt::normalize`, phrased on the reversed
(big-endian) digit list: `while (digits.back() == 0 && size > 1) pop_back()`. -/
def stripLead : List ℕ → List ℕ
  | [] => []
  | [d] => [d]
  | d :: e :: rest => if d = 0 then stripLead (e :: rest) else d :: e :: rest

/-- `UInt::normalize()`: drop most-significant zero digits while more than one
digit remains.  (The C++ function also `assert`s `0 <= d < BASE` for every
digit; assertions are modelled as proof obligations, not runtime checks.) -/
def normalize (l : List ℕ) : List ℕ := (stripLead l.reverse).reverse

/-- The representation invariant of `UInt` (spec §: digit sequence non-empty,
no most-significant zero digit unless the value is zero, digits in
`[0, BASE)`). -/
def Valid (l : List ℕ) : Prop :=
  l ≠ [] ∧ (∀ d ∈ l, d < BASE) ∧ (l.getLast? = some 0 → l = [0])

instance : DecidablePred Valid := fun l => by
  unfold Valid; infer_instance

/-- Constructor `UInt::UInt(int64_t number)` (for `number ≥ 0`; the C++
asserts `number >= 0`). -/
def ofNat (n : ℕ) : List ℕ := normalize (toDigits n)

/-- Constructor `UInt::UInt(const std::vector<int64_t>&)`: adopt the digit
vector and normalize.  (`normalize` asserts each digit is in range.) -/
def ofVec (v : List ℕ) : List ℕ := normalize v

end BigU

namespace BigU

theorem val_append (l1 l2 : List ℕ) :
    val (l1 ++ l2) = val l1 + BASE ^ l1.length * val l2 := by
  induction l1 with
  | nil => simp [val]
  | cons d rest ih => simp [val, ih, pow_succ]; ring

theorem val_reverse (l : List ℕ) : val l.reverse = valBE l := by
  induction l with
  | nil => rfl
  | cons d rest ih =>
    simp only [List.reverse_cons, val_append, valBE, val, List.length_reverse, ih]
    ring

theorem toDigitsF_fuel (f : ℕ) : ∀ g n, n ≤ f → n ≤ g → toDigitsF f n = toDigitsF g n := by
  induction f with
  | zero =>
    intro g n hf _
    interval_cases n
    cases g <;> simp [toDigitsF]
  | succ f ih =>
    intro g n hf hg
    match g with
    | 0 =>
      interval_cases n
      simp [toDigitsF]
    | g + 1 =>
      simp only [toDigitsF]
      by_cases h : n / BASE = 0
      · simp [h]
      · have hn : 0 < n := by
          rcases Nat.eq_zero_or_pos n with h0 | h0
          · exact absurd (by simp [h0]) h
          · exact h0
        have hlt : n / BASE < n := Nat.div_lt_self hn (by norm_num [BASE])
        simp only [h, if_false]
        rw [ih g (n / BASE) (by omega) (by omega)]

theorem toDigits_eq (n : ℕ) :
    toDigits n = if n / BASE = 0 then [n % BASE] else n % BASE :: toDigits (n / BASE) := by
  rcases Nat.eq_zero_or_pos n with h0 | h0
  · subst h0; simp [toDigits, toDigitsF]
  · show toDigitsF n n = _
    obtain ⟨m, rfl⟩ : ∃ m, n = m + 1 := ⟨n - 1, by omega⟩
    simp only [toDigitsF]
    by_cases h : (m + 1) / BASE = 0
    · simp [h]
    · have hlt : (m + 1) / BASE < m + 1 := Nat.div_lt_self (by omega) (by norm_num [BASE])
      simp only [h, if_false]
      rw [toDigitsF_fuel m ((m+1)/BASE) ((m+1)/BASE) (by omega) le_rfl]
      rfl

theorem val_toDigits (n : ℕ) : val (toDigits n) = n := by
  induction n using Nat.strong_induction_on with
  | _ n ih =>
    rw [toDigits_eq]
    by_cases h : n / BASE = 0
    · have : n < BASE := by
        by_contra hge
        push_neg at hge
        exact absurd h (Nat.div_pos hge (by norm_num [BASE])).ne'
      simp [h, val, Nat.mod_eq_of_lt this]
    · have hn : 0 < n := by
        rcases Nat.eq_zero_or_pos n with h0 | h0
        · exact absurd (by simp [h0]) h
        · exact h0
      have hlt : n / BASE < n := Nat.div_lt_self hn (by norm_num [BASE])
      simp only [h, if_false, val, ih _ hlt]
      exact Nat.mod_add_div n BASE

theorem toDigits_ne_nil (n : ℕ) : toDigits n ≠ [] := by
  rw [toDigits_eq]
  by_cases h : n / BASE = 0 <;> simp [h]

theorem mem_toDigits_lt (n : ℕ) : ∀ d ∈ toDigits n, d < BASE := by
  induction n using Nat.strong_induction_on with
  | _ n ih =>
    rw [toDigits_eq]
    by_cases h : n / BASE = 0
    · simp [h]
      exact Nat.mod_lt _ (by norm_num [BASE])
    · have hn : 0 < n := by
        rcases Nat.eq_zero_or_pos n with h0 | h0
        · exact absurd (by simp [h0]) h
        · exact h0
      have hlt : n / BASE < n := Nat.div_lt_self hn (by norm_num [BASE])
      simp only [h, if_false, List.mem_cons]
      rintro d (rfl | hd)
      · exact Nat.mod_lt _ (by norm_num [BASE])
      · exact ih _ hlt d hd

theorem toDigits_getLast_ne_zero (n : ℕ) (hn : 0 < n) : (toDigits n).getLast? ≠ some 0 := by
  induction n using Nat.strong_induction_on with
  | _ n ih =>
    rw [toDigits_eq]
    by_cases h : n / BASE = 0
    · have : n < BASE := by
        by_contra hge
        push_neg at hge
        exact absurd h (Nat.div_pos hge (by norm_num [BASE])).ne'
      simp [h, Nat.mod_eq_of_lt this]
      omega
    · have hn' : 0 < n / BASE := Nat.pos_of_ne_zero h
      have hlt : n / BASE < n := Nat.div_lt_self hn (by norm_num [BASE])
      simp only [h, if_false]
      obtain ⟨a, as, ha⟩ : ∃ a as, toDigits (n / BASE) = a :: as := by
        cases hd : toDigits (n / BASE) with
        | nil => exact absurd hd (toDigits_ne_nil _)
        | cons a as => exact ⟨a, as, rfl⟩
      rw [ha, List.getLast?_cons_cons, ← ha]
      exact ih _ hlt hn'

theorem valid_toDigits (n : ℕ) : Valid (toDigits n) := by
  refine ⟨toDigits_ne_nil n, mem_toDigits_lt n, ?_⟩
  intro hlast
  rcases Nat.eq_zero_or_pos n with h0 | h0
  · subst h0; rfl
  · exact absurd hlast (toDigits_getLast_ne_zero n h0)

end BigU

namespace BigU

theorem stripLead_valBE (l : List ℕ) : valBE (stripLead l) = valBE l := by
  induction l with
  | nil => rfl
  | cons d rest ih =>
    match rest, ih with
    | [], _ => rfl
    | e :: rest', ih =>
      show valBE (stripLead (d :: e :: rest')) = _
      unfold stripLead
      by_cases hd : d = 0
      · simp only [hd, if_true]
        rw [ih]
        simp [valBE]
      · simp [hd]

theorem val_normalize (l : List ℕ) : val (normalize l) = val l := by
  unfold normalize
  rw [val_reverse, stripLead_valBE, ← val_reverse, List.reverse_reverse]

theorem mem_stripLead (l : List ℕ) : ∀ d ∈ stripLead l, d ∈ l := by
  induction l with
  | nil => simp [stripLead]
  | cons d rest ih =>
    match rest, ih with
    | [], _ => simp [stripLead]
    | e :: rest', ih =>
      show ∀ x ∈ stripLead (d :: e :: rest'), _
      unfold stripLead
      by_cases hd : d = 0
      · simp only [hd, if_true]
        intro x hx
        exact List.mem_cons_of_mem _ (ih x hx)
      · simp [hd]

theorem stripLead_ne_nil (l : List ℕ) (h : l ≠ []) : stripLead l ≠ [] := by
  induction l with
  | nil => exact absurd rfl h
  | cons d rest ih =>
    match rest, ih with
    | [], _ => simp [stripLead]
    | e :: rest', ih =>
      show stripLead (d :: e :: rest') ≠ []
      unfold stripLead
      by_cases hd : d = 0
      · simp only [hd, if_true]
        exact ih (by simp)
      · simp [hd]

theorem stripLead_head (l : List ℕ) :
    stripLead l = [] ∨ (∃ d, stripLead l = [d]) ∨
      (∃ d rest, stripLead l = d :: rest ∧ d ≠ 0) := by
  induction l with
  | nil => exact Or.inl rfl
  | cons d rest ih =>
    match rest, ih with
    | [], _ => exact Or.inr (Or.inl ⟨d, rfl⟩)
    | e :: rest', ih =>
      show stripLead (d :: e :: rest') = [] ∨ _ ∨ _
      unfold stripLead
      by_cases hd : d = 0
      · simpa [hd] using ih
      · exact Or.inr (Or.inr ⟨d, e :: rest', by simp [hd]⟩)

theorem normalize_ne_nil (l : List ℕ) (h : l ≠ []) : normalize l ≠ [] := by
  unfold normalize
  intro hc
  have := stripLead_ne_nil l.reverse (by simpa using h)
  rw [← List.reverse_reverse (stripLead l.reverse), hc] at this
  exact this rfl

theorem mem_normalize (l : List ℕ) : ∀ d ∈ normalize l, d ∈ l := by
  intro d hd
  unfold normalize at hd
  rw [List.mem_reverse] at hd
  have := mem_stripLead l.reverse d hd
  rwa [List.mem_reverse] at this

theorem valid_normalize (l : List ℕ) (h : l ≠ []) (hb : ∀ d ∈ l, d < BASE) :
    Valid (normalize l) := by
  refine ⟨normalize_ne_nil l h, fun d hd => hb d (mem_normalize l d hd), ?_⟩
  intro hlast
  unfold normalize at hlast ⊢
  rw [List.getLast?_reverse] at hlast
  rcases stripLead_head l.reverse with h0 | ⟨d, hd⟩ | ⟨d, rest, hd, hne⟩
  · exact absurd h0 (stripLead_ne_nil l.reverse (by simpa using h))
  · rw [hd] at hlast ⊢
    simp at hlast
    simp [hlast]
  · rw [hd] at hlast
    simp at hlast
    exact absurd hlast hne

theorem normalize_eq_self (l : List ℕ) (h : Valid l) : normalize l = l := by
  obtain ⟨hne, _, hlast⟩ := h
  by_cases h0 : l = [0]
  · subst h0; rfl
  · obtain ⟨d, hd⟩ : ∃ d, l.getLast? = some d := by
      cases hl : l.getLast? with
      | none => exact absurd (List.getLast?_eq_none_iff.mp hl) hne
      | some d => exact ⟨d, rfl⟩
    have hd0 : d ≠ 0 := by
      intro hc
      exact h0 (hlast (hc ▸ hd))
    obtain ⟨t, ht⟩ : ∃ t, l.reverse = d :: t := by
      cases hr : l.reverse with
      | nil => simp at hr; exact absurd hr hne
      | cons x xs =>
        refine ⟨xs, ?_⟩
        have : l.reverse.head? = some x := by rw [hr]; rfl
        rw [List.head?_reverse, hd] at this
        injection this with hx
        exact congrArg (· :: xs) hx.symm
    unfold normalize
    rw [ht]
    have : stripLead (d :: t) = d :: t := by
      cases t with
      | nil => rfl
      | cons e rest => unfold stripLead; simp [hd0]
    rw [this, ← ht, List.reverse_reverse]

theorem val_lt_pow (l : List ℕ) (hb : ∀ d ∈ l, d < BASE) :
    val l < BASE ^ l.length := by
  induction l with
  | nil => simp [val]
  | cons d rest ih =>
    have h1 : d < BASE := hb d (by simp)
    have h2 : val rest < BASE ^ rest.length := ih (fun x hx => hb x (by simp [hx]))
    simp only [val, List.length_cons, pow_succ]
    calc d + BASE * val rest < BASE + BASE * val rest := by omega
      _ = BASE * (1 + val rest) := by ring
      _ ≤ BASE * BASE ^ rest.length := Nat.mul_le_mul_left _ (by omega)
      _ = BASE ^ rest.length * BASE := by ring

theorem getLast_le_val (l : List ℕ) (d : ℕ) (h : l.getLast? = some d) :
    d * BASE ^ (l.length - 1) ≤ val l := by
  induction l with
  | nil => simp at h
  | cons x rest ih =>
    cases rest with
    | nil =>
      simp at h
      simp [val, h]
    | cons y rest' =>
      rw [List.getLast?_cons_cons] at h
      have ih' := ih h
      simp only [List.length_cons, Nat.add_sub_cancel] at ih' ⊢
      have hval : val (x :: y :: rest') = x + BASE * val (y :: rest') := rfl
      have h1 : d * BASE ^ (rest'.length + 1) = BASE * (d * BASE ^ rest'.length) := by ring
      rw [hval, h1]
      have h2 : BASE * (d * BASE ^ rest'.length) ≤ BASE * val (y :: rest') :=
        Nat.mul_le_mul_left _ ih'
      omega

theorem valid_val_pos (l : List ℕ) (h : Valid l) (h0 : l ≠ [0]) : 0 < val l := by
  obtain ⟨hne, _, hlast⟩ := h
  obtain ⟨d, hd⟩ : ∃ d, l.getLast? = some d := by
    cases hl : l.getLast? with
    | none => exact absurd (List.getLast?_eq_none_iff.mp hl) hne
    | some d => exact ⟨d, rfl⟩
  have hd0 : d ≠ 0 := fun hc => h0 (hlast (hc ▸ hd))
  have := getLast_le_val l d hd
  have hB : 0 < BASE ^ (l.length - 1) := Nat.pos_pow_of_pos _ (by norm_num [BASE])
  nlinarith [Nat.pos_of_ne_zero hd0]

theorem val_zero_all_zero (l : List ℕ) (h : val l = 0) : ∀ d ∈ l, d = 0 := by
  induction l with
  | nil => simp
  | cons x rest ih =>
    simp only [val] at h
    have hx : x = 0 := by omega
    have hr : val rest = 0 := by
      have hB : 0 < BASE := by norm_num [BASE]
      nlinarith [Nat.zero_le (val rest)]
    simp only [List.mem_cons]
    rintro d (rfl | hd)
    · exact hx
    · exact ih hr d hd

theorem valid_val_zero (l : List ℕ) (h : Valid l) (h0 : val l = 0) : l = [0] := by
  obtain ⟨hne, _, hlast⟩ := h
  apply hlast
  obtain ⟨d, hd⟩ : ∃ d, l.getLast? = some d := by
    cases hl : l.getLast? with
    | none => exact absurd (List.getLast?_eq_none_iff.mp hl) hne
    | some d => exact ⟨d, rfl⟩
  have : d ∈ l := List.mem_of_getLast?_eq_some hd
  rw [val_zero_all_zero l h0 d this] at hd
  exact hd

theorem valid_tail (x : ℕ) (xs : List ℕ) (h : Valid (x :: xs)) (hne : xs ≠ []) :
    Valid xs ∧ 0 < val xs := by
  obtain ⟨z, zs, rfl⟩ : ∃ z zs, xs = z :: zs := by
    cases xs with
    | nil => exact absurd rfl hne
    | cons z zs => exact ⟨z, zs, rfl⟩
  have hglast : (x :: z :: zs).getLast? = (z :: zs).getLast? := List.getLast?_cons_cons
  have hvx : Valid (z :: zs) := by
    refine ⟨by simp, fun d hd => h.2.1 d (by simp [hd]), ?_⟩
    intro hl
    have := h.2.2 (hglast.trans hl)
    simp at this
  have hne0 : z :: zs ≠ [0] := by
    intro hc
    have : (x :: z :: zs).getLast? = some 0 := by rw [hglast, hc]; rfl
    have := h.2.2 this
    simp at this
  exact ⟨hvx, valid_val_pos _ hvx hne0⟩

theorem valid_unique (a : List ℕ) : ∀ b, Valid a → Valid b → val a = val b → a = b := by
  induction a with
  | nil => intro b ha _ _; exact absurd rfl ha.1
  | cons x xs ih =>
    intro b ha hb hv
    obtain ⟨y, ys, rfl⟩ : ∃ y ys, b = y :: ys := by
      cases b with
      | nil => exact absurd rfl hb.1
      | cons y ys => exact ⟨y, ys, rfl⟩
    have hx : x < BASE := ha.2.1 x (by simp)
    have hy : y < BASE := hb.2.1 y (by simp)
    have hxy : x = y := by
      have h1 : val (x :: xs) % BASE = x := by
        simp only [val]
        rw [Nat.add_mul_mod_self_left]
        exact Nat.mod_eq_of_lt hx
      have h2 : val (y :: ys) % BASE = y := by
        simp only [val]
        rw [Nat.add_mul_mod_self_left]
        exact Nat.mod_eq_of_lt hy
      rw [← h1, ← h2, hv]
    subst hxy
    have htails : val xs = val ys := by
      simp only [val] at hv
      exact Nat.eq_of_mul_eq_mul_left (by norm_num [BASE]) (Nat.add_left_cancel hv)
    cases hxs : xs with
    | nil =>
      cases hys : ys with
      | nil => rfl
      | cons w ws =>
        exfalso
        have hpos := (valid_tail x ys hb (by simp [hys])).2
        rw [← htails, hxs] at hpos
        simp [val] at hpos
    | cons z zs =>
      cases hys : ys with
      | nil =>
        exfalso
        have hpos := (valid_tail x xs ha (by simp [hxs])).2
        rw [htails, hys] at hpos
        simp [val] at hpos
      | cons w ws =>
        rw [← hxs, ← hys]
        have h1 := valid_tail x xs ha (by simp [hxs])
        have h2 := valid_tail x ys hb (by simp [hys])
        exact congrArg (x :: ·) (ih ys h1.1 h2.1 htails)

theorem valid_toDigits_val (l : List ℕ) (h : Valid l) : toDigits (val l) = l :=
  valid_unique (toDigits (val l)) l (valid_toDigits _) h (by rw [val_toDigits])

end BigU

namespace BigU

theorem ofNat_eq_toDigits (n : ℕ) : ofNat n = toDigits n :=
  normalize_eq_self _ (valid_toDigits n)

theorem val_ofNat (n : ℕ) : val (ofNat n) = n := by
  rw [ofNat_eq_toDigits, val_toDigits]

theorem valid_ofNat (n : ℕ) : Valid (ofNat n) := by
  rw [ofNat_eq_toDigits]; exact valid_toDigits n

theorem ofNat_val (l : List ℕ) (h : Valid l) : ofNat (val l) = l := by
  rw [ofNat_eq_toDigits]; exact valid_toDigits_val l h

theorem valid_msd (l : List ℕ) (h : Valid l) (h0 : l ≠ [0]) :
    ∃ d, l.getLast? = some d ∧ 1 ≤ d := by
  obtain ⟨d, hd⟩ : ∃ d, l.getLast? = some d := by
    cases hl : l.getLast? with
    | none => exact absurd (List.getLast?_eq_none_iff.mp hl) h.1
    | some d => exact ⟨d, rfl⟩
  refine ⟨d, hd, ?_⟩
  rcases Nat.eq_zero_or_pos d with h1 | h1
  · exact absurd (h.2.2 (h1 ▸ hd)) h0
  · exact h1

theorem valBE_lt_pow (l : List ℕ) (hb : ∀ d ∈ l, d < BASE) :
    valBE l < BASE ^ l.length := by
  have := val_lt_pow l.reverse (by simpa using hb)
  rwa [val_reverse, List.length_reverse] at this

end BigU

namespace BigU

/-- The digit-by-digit scan of `UInt::compare` (lines 416-419), phrased on the
big-endian (reversed) digit lists: on equal lengths, return the sign of the
first differing digit pair, scanning from the most significant digit. -/
def cmpBE : List ℕ → List ℕ → ℤ
  | [], _ => 0
  | _ :: _, [] => 0
  | x :: xs, y :: ys => if x > y then 1 else if x < y then -1 else cmpBE xs ys

/-- `UInt::compare(const UInt&)` (lines 413-421): longer digit vector is
greater; on equal lengths compare digits from the most significant one down.
Result is `1`, `0` or `-1` as in the C++ (`int64_t`, modelled as `ℤ`). -/
def compareL (a b : List ℕ) : ℤ :=
  if a.length > b.length then 1
  else if a.length < b.length then -1
  else cmpBE a.reverse b.reverse

/-- `operator<` (line 424): `a.compare(b) < 0`. -/
def ltU (a b : List ℕ) : Bool := compareL a b < 0

/-- `operator>` (line 425): `a.compare(b) > 0`. -/
def gtU (a b : List ℕ) : Bool := compareL a b > 0

/-- `operator==` (line 426): `a.compare(b) == 0`. -/
def eqU (a b : List ℕ) : Bool := compareL a b = 0

/-- `operator<=` (line 427): `a.compare(b) <= 0`. -/
def leU (a b : List ℕ) : Bool := compareL a b ≤ 0

/-- `operator>=` (line 428): `a.compare(b) >= 0`. -/
def geU (a b : List ℕ) : Bool := compareL a b ≥ 0

/-- `operator!=` (line 429): `a.compare(b) != 0`. -/
def neU (a b : List ℕ) : Bool := compareL a b ≠ 0

theorem cmpBE_spec (xs : List ℕ) : ∀ ys, xs.length = ys.length →
    (∀ d ∈ xs, d < BASE) → (∀ d ∈ ys, d < BASE) →
    (cmpBE xs ys = 1 ∧ valBE ys < valBE xs) ∨
    (cmpBE xs ys = 0 ∧ valBE xs = valBE ys) ∨
    (cmpBE xs ys = -1 ∧ valBE xs < valBE ys) := by
  induction xs with
  | nil =>
    intro ys hlen _ _
    have : ys = [] := by
      cases ys with
      | nil => rfl
      | cons y ys' => simp at hlen
    subst this
    exact Or.inr (Or.inl ⟨rfl, rfl⟩)
  | cons x xs ih =>
    intro ys hlen hxb hyb
    obtain ⟨y, ys', rfl⟩ : ∃ y ys', ys = y :: ys' := by
      cases ys with
      | nil => simp at hlen
      | cons y ys' => exact ⟨y, ys', rfl⟩
    simp only [List.length_cons, Nat.add_right_cancel_iff] at hlen
    have hx : x < BASE := hxb x (by simp)
    have hvx : valBE xs < BASE ^ xs.length := valBE_lt_pow xs (fun d hd => hxb d (by simp [hd]))
    have hvy : valBE ys' < BASE ^ ys'.length := valBE_lt_pow ys' (fun d hd => hyb d (by simp [hd]))
    have hcons : cmpBE (x :: xs) (y :: ys') =
        if x > y then 1 else if x < y then -1 else cmpBE xs ys' := rfl
    rw [hcons]
    by_cases hgt : x > y
    · left
      refine ⟨by simp [hgt], ?_⟩
      simp only [valBE, hlen]
      have : y * BASE ^ ys'.length + BASE ^ ys'.length ≤ x * BASE ^ ys'.length := by
        have : y + 1 ≤ x := hgt
        nlinarith [Nat.pos_pow_of_pos ys'.length (show 0 < BASE by norm_num [BASE])]
      rw [hlen] at hvx
      omega
    · by_cases hlt : x < y
      · right; right
        refine ⟨by simp [hgt, hlt], ?_⟩
        simp only [valBE, hlen]
        have : x * BASE ^ ys'.length + BASE ^ ys'.length ≤ y * BASE ^ ys'.length := by
          have : x + 1 ≤ y := hlt
          nlinarith [Nat.pos_pow_of_pos ys'.length (show 0 < BASE by norm_num [BASE])]
        rw [hlen] at hvx
        omega
      · have hxy : x = y := by omega
        subst hxy
        have := ih ys' hlen (fun d hd => hxb d (by simp [hd])) (fun d hd => hyb d (by simp [hd]))
        simp only [valBE, hlen]
        rcases this with ⟨h1, h2⟩ | ⟨h1, h2⟩ | ⟨h1, h2⟩
        · left; exact ⟨by simp [h1], by omega⟩
        · right; left; exact ⟨by simp [h1], by omega⟩
        · right; right; exact ⟨by simp [h1], by omega⟩

theorem compareL_spec (a b : List ℕ) (ha : Valid a) (hb : Valid b) :
    (compareL a b = 1 ∧ val b < val a) ∨
    (compareL a b = 0 ∧ val a = val b) ∨
    (compareL a b = -1 ∧ val a < val b) := by
  unfold compareL
  by_cases hgt : a.length > b.length
  · left
    refine ⟨by simp [hgt], ?_⟩
    have hane : a ≠ [0] := by
      intro hc
      rw [hc] at hgt
      exact hb.1 (List.length_eq_zero.mp (Nat.lt_one_iff.mp hgt))
    obtain ⟨d, hd, hd1⟩ := valid_msd a ha hane
    have h1 := getLast_le_val a d hd
    have h2 := val_lt_pow b hb.2.1
    have h3 : BASE ^ b.length ≤ BASE ^ (a.length - 1) :=
      Nat.pow_le_pow_right (by norm_num [BASE]) (by omega)
    nlinarith [Nat.pos_pow_of_pos (a.length - 1) (show 0 < BASE by norm_num [BASE])]
  · by_cases hlt : a.length < b.length
    · right; right
      refine ⟨by simp [hgt, hlt], ?_⟩
      have hbne : b ≠ [0] := by
        intro hc
        rw [hc] at hlt
        exact ha.1 (List.length_eq_zero.mp (Nat.lt_one_iff.mp hlt))
      obtain ⟨d, hd, hd1⟩ := valid_msd b hb hbne
      have h1 := getLast_le_val b d hd
      have h2 := val_lt_pow a ha.2.1
      have h3 : BASE ^ a.length ≤ BASE ^ (b.length - 1) :=
        Nat.pow_le_pow_right (by norm_num [BASE]) (by omega)
      nlinarith [Nat.pos_pow_of_pos (b.length - 1) (show 0 < BASE by norm_num [BASE])]
    · have hlen : a.length = b.length := by omega
      have := cmpBE_spec a.reverse b.reverse (by simp [hlen])
        (by simpa using ha.2.1) (by simpa using hb.2.1)
      have hva : valBE a.reverse = val a := by
        have h := val_reverse a.reverse
        rw [List.reverse_reverse] at h
        exact h.symm
      have hvb : valBE b.reverse = val b := by
        have h := val_reverse b.reverse
        rw [List.reverse_reverse] at h
        exact h.symm
      rw [hva, hvb] at this
      simp only [hgt, hlt, if_false]
      exact this

theorem compareL_zero_iff (a b : List ℕ) (ha : Valid a) (hb : Valid b) :
    compareL a b = 0 ↔ val a = val b := by
  rcases compareL_spec a b ha hb with ⟨h1, h2⟩ | ⟨h1, h2⟩ | ⟨h1, h2⟩ <;>
    constructor <;> intro h <;> omega

theorem compareL_neg_iff (a b : List ℕ) (ha : Valid a) (hb : Valid b) :
    compareL a b < 0 ↔ val a < val b := by
  rcases compareL_spec a b ha hb with ⟨h1, h2⟩ | ⟨h1, h2⟩ | ⟨h1, h2⟩ <;>
    constructor <;> intro h <;> omega

theorem compareL_pos_iff (a b : List ℕ) (ha : Valid a) (hb : Valid b) :
    0 < compareL a b ↔ val b < val a := by
  rcases compareL_spec a b ha hb with ⟨h1, h2⟩ | ⟨h1, h2⟩ | ⟨h1, h2⟩ <;>
    constructor <;> intro h <;> omega

end BigU

namespace BigU

/-- The carry loop of `UInt::operator+=(int64_t num)` (lines 114-125) for
`num < BASE`: starting with `rem = num`, add `rem` into digit `i`; on
overflow store `rem - BASE` and continue with carry `rem = 1`; a missing
digit is appended as `0` first (so when the list is exhausted the remaining
carry, which is `< BASE`, becomes the new top digit). -/
def addCarry : List ℕ → ℕ → List ℕ
  | l, 0 => l
  | [], r + 1 => [r + 1]
  | d :: rest, r + 1 =>
      if d + (r + 1) ≥ BASE then (d + (r + 1) - BASE) :: addCarry rest 1
      else (d + (r + 1)) :: rest

/-- Continuation of the carry loop of `UInt::operator+=(const UInt&)` once
`this` has run out of digits (`digits.push_back(0)` supplies a `0` for `d1`):
`rem += d2; digits[i] = rem % BASE; rem /= BASE`.  With both operands
exhausted the loop keeps emitting `rem % BASE` while `rem > 0`, which is
exactly the digit expansion `toDigits rem`. -/
def addTail : List ℕ → ℕ → List ℕ
  | [], r => if r = 0 then [] else toDigits r
  | e :: es, r => ((e + r) % BASE) :: addTail es ((e + r) / BASE)

/-- The digit-wise carry loop of `UInt::operator+=(const UInt&)` (lines
137-144): `rem += d1 + d2; digits[i] = rem % BASE; rem = rem / BASE`, running
while digits remain in either operand or a carry is pending. -/
def addLoop : List ℕ → List ℕ → ℕ → List ℕ
  | [], b, r => addTail b r
  | d :: ds, b, r =>
    match b with
    | [] => ((d + r) % BASE) :: addLoop ds [] ((d + r) / BASE)
    | e :: es => ((d + e + r) % BASE) :: addLoop ds es ((d + e + r) / BASE)

/-- The general path of `UInt::operator+=(const UInt&)`: run the carry loop
and normalize (`this->normalize()`, line 145). -/
def addUIntAux (a b : List ℕ) : List ℕ := normalize (addLoop a b 0)

/-- `UInt::operator+=(int64_t num)` (lines 109-127).  For `num >= BASE` the
C++ escalates to `*this += UInt(num)`; since `UInt(num)` then has at least
two digits, the single-digit shortcut of the `UInt` overload does not fire
and the general carry loop runs — modelled by calling it directly. -/
def addNat (l : List ℕ) (num : ℕ) : List ℕ :=
  if num < BASE then normalize (addCarry l num) else addUIntAux l (ofNat num)

/-- `UInt::operator+=(const UInt& other)` (lines 130-146): a single-digit
`other` is delegated to the `int64_t` overload, otherwise the digit-wise
carry loop runs. -/
def addUInt (a b : List ℕ) : List ℕ :=
  if b.length = 1 then addNat a (b.headD 0) else addUIntAux a b

/-- The borrow loop of `UInt::operator-=(int64_t num)` (lines 154-164) for
`num < BASE`: subtract `num` from digit 0, borrowing (`digits[i] = rem +
BASE; rem = -1`) while the running remainder is negative.  When the digits
run out with a borrow pending the C++ hits `assert(rem == 0)`; that branch
is unreachable under the precondition `num ≤ value` and is modelled as
returning `[]`. -/
def subCarry : List ℕ → ℕ → List ℕ
  | l, 0 => l
  | [], _ + 1 => []
  | d :: rest, s + 1 =>
      if d < s + 1 then (d + BASE - (s + 1)) :: subCarry rest 1
      else (d - (s + 1)) :: rest

/-- The digit-wise borrow loop of `UInt::operator-=(const UInt&)` (lines
177-189): at digit `i`, subtract `other`'s digit (or `0` past its end) and
the borrow; a non-negative remainder with `i >= s2` breaks out of the loop,
leaving the higher digits unchanged.  Exhausting `this` with a borrow
pending hits `assert(rem == 0)` / `assert(s1 >= s2)`, unreachable when
`other ≤ this`; modelled as returning `[]`. -/
def subLoop : List ℕ → List ℕ → ℕ → List ℕ
  | [], _, _ => []
  | d :: ds, b, br =>
    match b with
    | [] => if d < br then (d + BASE - br) :: subLoop ds [] 1 else (d - br) :: ds
    | e :: es =>
      if d < e + br then (d + BASE - (e + br)) :: subLoop ds es 1
      else (d - (e + br)) :: subLoop ds es 0

/-- The general path of `UInt::operator-=(const UInt&)`: borrow loop, then
`this->normalize()` (line 191). -/
def subUIntAux (a b : List ℕ) : List ℕ := normalize (subLoop a b 0)

/-- `UInt::operator-=(int64_t num)` (lines 149-167).  For `num >= BASE` the
C++ escalates to `*this -= UInt(num)`, whose multi-digit argument skips the
single-digit shortcut, so the general borrow loop runs. -/
def subNat (a : List ℕ) (num : ℕ) : List ℕ :=
  if num < BASE then normalize (subCarry a num) else subUIntAux a (ofNat num)

/-- `UInt::operator-=(const UInt& other)` (lines 170-192): a single-digit
`other` is delegated to the `int64_t` overload, otherwise the borrow loop
runs. -/
def subUInt (a b : List ℕ) : List ℕ :=
  if b.length = 1 then subNat a (b.headD 0) else subUIntAux a b

theorem addCarry_val (l : List ℕ) : ∀ r, val (addCarry l r) = val l + r := by
  induction l with
  | nil =>
    intro r
    cases r with
    | zero => rfl
    | succ r' => simp [addCarry, val]
  | cons d rest ih =>
    intro r
    cases r with
    | zero => rfl
    | succ r' =>
      show val (if d + (r' + 1) ≥ BASE then (d + (r' + 1) - BASE) :: addCarry rest 1
        else (d + (r' + 1)) :: rest) = _
      by_cases h : d + (r' + 1) ≥ BASE
      · rw [if_pos h]
        have h1 := ih 1
        simp only [val] at h1 ⊢
        simp only [BASE] at h h1 ⊢
        omega
      · rw [if_neg h]
        simp only [val, BASE] at h ⊢
        omega

theorem addCarry_lt (l : List ℕ) : ∀ r, r < BASE → (∀ d ∈ l, d < BASE) →
    ∀ x ∈ addCarry l r, x < BASE := by
  induction l with
  | nil =>
    intro r hr _
    cases r with
    | zero => simp [addCarry]
    | succ r' => simpa [addCarry] using hr
  | cons d rest ih =>
    intro r hr hl
    cases r with
    | zero => simpa [addCarry] using hl
    | succ r' =>
      have hd : d < BASE := hl d (by simp)
      show ∀ x ∈ (if d + (r' + 1) ≥ BASE then (d + (r' + 1) - BASE) :: addCarry rest 1
        else (d + (r' + 1)) :: rest), x < BASE
      by_cases h : d + (r' + 1) ≥ BASE
      · rw [if_pos h]
        intro x hx
        rw [List.mem_cons] at hx
        cases hx with
        | inl h1 => rw [h1]; omega
        | inr h2 => exact ih 1 (by norm_num [BASE]) (fun y hy => hl y (by simp [hy])) x h2
      · rw [if_neg h]
        intro x hx
        rw [List.mem_cons] at hx
        cases hx with
        | inl h1 => rw [h1]; omega
        | inr h2 => exact hl x (by simp [h2])

theorem addCarry_ne_nil (l : List ℕ) (r : ℕ) (h : l ≠ []) : addCarry l r ≠ [] := by
  cases l with
  | nil => exact absurd rfl h
  | cons d rest =>
    cases r with
    | zero => simp [addCarry]
    | succ r' =>
      show (if d + (r' + 1) ≥ BASE then (d + (r' + 1) - BASE) :: addCarry rest 1
        else (d + (r' + 1)) :: rest) ≠ []
      by_cases hc : d + (r' + 1) ≥ BASE <;> simp [hc]

theorem addTail_val (b : List ℕ) : ∀ r, val (addTail b r) = val b + r := by
  induction b with
  | nil =>
    intro r
    show val (if r = 0 then [] else toDigits r) = _
    by_cases h : r = 0
    · simp [h, val]
    · simp [h, val_toDigits, val]
  | cons e es ih =>
    intro r
    show val (((e + r) % BASE) :: addTail es ((e + r) / BASE)) = _
    simp only [val, ih]
    have := Nat.mod_add_div (e + r) BASE
    simp only [BASE] at *
    omega

theorem addTail_lt (b : List ℕ) : ∀ r, ∀ x ∈ addTail b r, x < BASE := by
  induction b with
  | nil =>
    intro r x hx
    by_cases h : r = 0
    · simp [addTail, h] at hx
    · have heq : addTail [] r = toDigits r := by simp [addTail, h]
      rw [heq] at hx
      exact mem_toDigits_lt r x hx
  | cons e es ih =>
    intro r x hx
    rcases List.mem_cons.mp hx with rfl | hx'
    · exact Nat.mod_lt _ (by norm_num [BASE])
    · exact ih _ x hx'

theorem addLoop_val (a : List ℕ) : ∀ b r, val (addLoop a b r) = val a + val b + r := by
  induction a with
  | nil =>
    intro b r
    show val (addTail b r) = _
    rw [addTail_val]
    simp [val]
  | cons d ds ih =>
    intro b r
    cases b with
    | nil =>
      show val (((d + r) % BASE) :: addLoop ds [] ((d + r) / BASE)) = _
      simp only [val, ih]
      have := Nat.mod_add_div (d + r) BASE
      simp only [BASE] at *
      omega
    | cons e es =>
      show val (((d + e + r) % BASE) :: addLoop ds es ((d + e + r) / BASE)) = _
      simp only [val, ih]
      have := Nat.mod_add_div (d + e + r) BASE
      simp only [BASE] at *
      omega

theorem addLoop_lt (a : List ℕ) : ∀ b r, ∀ x ∈ addLoop a b r, x < BASE := by
  induction a with
  | nil =>
    intro b r x hx
    exact addTail_lt b r x hx
  | cons d ds ih =>
    intro b r x hx
    cases b with
    | nil =>
      rcases List.mem_cons.mp hx with rfl | hx'
      · exact Nat.mod_lt _ (by norm_num [BASE])
      · exact ih [] _ x hx'
    | cons e es =>
      rcases List.mem_cons.mp hx with rfl | hx'
      · exact Nat.mod_lt _ (by norm_num [BASE])
      · exact ih es _ x hx'

theorem addLoop_ne_nil (a b : List ℕ) (r : ℕ) (h : a ≠ []) : addLoop a b r ≠ [] := by
  cases a with
  | nil => exact absurd rfl h
  | cons d ds => cases b <;> simp [addLoop]

theorem addUIntAux_val (a b : List ℕ) : val (addUIntAux a b) = val a + val b := by
  unfold addUIntAux
  rw [val_normalize, addLoop_val]
  omega

theorem valid_addUIntAux (a b : List ℕ) (ha : a ≠ []) : Valid (addUIntAux a b) :=
  valid_normalize _ (addLoop_ne_nil a b 0 ha) (addLoop_lt a b 0)

theorem addNat_val (l : List ℕ) (num : ℕ) : val (addNat l num) = val l + num := by
  unfold addNat
  by_cases h : num < BASE
  · simp only [h, if_true]
    rw [val_normalize, addCarry_val]
  · simp only [h, if_false]
    rw [addUIntAux_val, val_ofNat]

theorem valid_addNat (l : List ℕ) (num : ℕ) (hne : l ≠ []) (hb : ∀ d ∈ l, d < BASE) :
    Valid (addNat l num) := by
  unfold addNat
  by_cases h : num < BASE
  · simp only [h, if_true]
    exact valid_normalize _ (addCarry_ne_nil l num hne) (addCarry_lt l num h hb)
  · simp only [h, if_false]
    exact valid_addUIntAux l _ hne

theorem addUInt_val (a b : List ℕ) : val (addUInt a b) = val a + val b := by
  unfold addUInt
  by_cases h : b.length = 1
  · obtain ⟨x, rfl⟩ : ∃ x, b = [x] := by
      cases b with
      | nil => simp at h
      | cons y ys =>
        cases ys with
        | nil => exact ⟨y, rfl⟩
        | cons z zs => simp at h
    simp only [h, if_true, List.headD]
    rw [addNat_val]
    simp [val]
  · simp only [h, if_false]
    exact addUIntAux_val a b

theorem valid_addUInt (a b : List ℕ) (hne : a ≠ []) (hb : ∀ d ∈ a, d < BASE) :
    Valid (addUInt a b) := by
  unfold addUInt
  by_cases h : b.length = 1
  · simp only [h, if_true]
    exact valid_addNat a _ hne hb
  · simp only [h, if_false]
    exact valid_addUIntAux a b hne

end BigU

namespace BigU

theorem subCarry_val (l : List ℕ) : ∀ s, s ≤ BASE → s ≤ val l →
    val (subCarry l s) + s = val l := by
  induction l with
  | nil =>
    intro s _ hs
    simp only [val] at hs
    interval_cases s
    rfl
  | cons d rest ih =>
    intro s hsB hs
    cases s with
    | zero => simp [subCarry]
    | succ s' =>
      show val (if d < s' + 1 then (d + BASE - (s' + 1)) :: subCarry rest 1
        else (d - (s' + 1)) :: rest) + _ = _
      by_cases h : d < s' + 1
      · rw [if_pos h]
        have hrest : 1 ≤ val rest := by
          simp only [val] at hs
          by_contra hc
          push_neg at hc
          interval_cases hv : val rest <;> omega
        have h1 := ih 1 (by norm_num [BASE]) hrest
        simp only [val] at hs ⊢
        simp only [BASE] at *
        omega
      · rw [if_neg h]
        simp only [val] at hs ⊢
        simp only [BASE] at *
        omega

theorem subCarry_lt (l : List ℕ) : ∀ s, s ≤ BASE → (∀ d ∈ l, d < BASE) →
    ∀ x ∈ subCarry l s, x < BASE := by
  induction l with
  | nil =>
    intro s _ _ x hx
    cases s with
    | zero => simp [subCarry] at hx
    | succ s' => simp [subCarry] at hx
  | cons d rest ih =>
    intro s hsB hl
    cases s with
    | zero => simpa [subCarry] using hl
    | succ s' =>
      have hd : d < BASE := hl d (by simp)
      show ∀ x ∈ (if d < s' + 1 then (d + BASE - (s' + 1)) :: subCarry rest 1
        else (d - (s' + 1)) :: rest), x < BASE
      by_cases h : d < s' + 1
      · rw [if_pos h]
        intro x hx
        rw [List.mem_cons] at hx
        cases hx with
        | inl h1 => rw [h1]; omega
        | inr h2 => exact ih 1 (by norm_num [BASE]) (fun y hy => hl y (by simp [hy])) x h2
      · rw [if_neg h]
        intro x hx
        rw [List.mem_cons] at hx
        cases hx with
        | inl h1 => rw [h1]; omega
        | inr h2 => exact hl x (by simp [h2])

theorem subCarry_ne_nil (l : List ℕ) (s : ℕ) (h : l ≠ []) : subCarry l s ≠ [] := by
  cases l with
  | nil => exact absurd rfl h
  | cons d rest =>
    cases s with
    | zero => simp [subCarry]
    | succ s' =>
      show (if d < s' + 1 then (d + BASE - (s' + 1)) :: subCarry rest 1
        else (d - (s' + 1)) :: rest) ≠ []
      by_cases hc : d < s' + 1 <;> simp [hc]

theorem subLoop_val (a : List ℕ) : ∀ b br, br ≤ 1 → (∀ d ∈ a, d < BASE) →
    (∀ d ∈ b, d < BASE) → val b + br ≤ val a →
    val (subLoop a b br) + val b + br = val a := by
  induction a with
  | nil =>
    intro b br _ _ _ hle
    simp only [val] at hle ⊢
    show val [] + val b + br = 0
    simp only [val]
    omega
  | cons d ds ih =>
    intro b br hbr ha hb hle
    have hd : d < BASE := ha d (by simp)
    cases b with
    | nil =>
      show val (if d < br then (d + BASE - br) :: subLoop ds [] 1
        else (d - br) :: ds) + _ + _ = _
      by_cases h : d < br
      · rw [if_pos h]
        have hds : 1 ≤ val ds := by
          simp only [val] at hle
          by_contra hc
          push_neg at hc
          interval_cases hv : val ds <;> omega
        have h1 := ih [] 1 (by norm_num) (fun y hy => ha y (by simp [hy])) (by simp) (by
          simp only [val]
          omega)
        simp only [val] at hle h1 ⊢
        simp only [BASE] at *
        omega
      · rw [if_neg h]
        simp only [val] at hle ⊢
        simp only [BASE] at *
        omega
    | cons e es =>
      have he : e < BASE := hb e (by simp)
      show val (if d < e + br then (d + BASE - (e + br)) :: subLoop ds es 1
        else (d - (e + br)) :: subLoop ds es 0) + _ + _ = _
      by_cases h : d < e + br
      · rw [if_pos h]
        have hpre : val es + 1 ≤ val ds := by
          simp only [val] at hle
          simp only [BASE] at *
          omega
        have h1 := ih es 1 (by norm_num) (fun y hy => ha y (by simp [hy]))
          (fun y hy => hb y (by simp [hy])) hpre
        simp only [val] at hle h1 ⊢
        simp only [BASE] at *
        omega
      · rw [if_neg h]
        have hpre : val es + 0 ≤ val ds := by
          simp only [val] at hle
          simp only [BASE] at *
          omega
        have h1 := ih es 0 (by norm_num) (fun y hy => ha y (by simp [hy]))
          (fun y hy => hb y (by simp [hy])) hpre
        simp only [val] at hle h1 ⊢
        simp only [BASE] at *
        omega

theorem subLoop_lt (a : List ℕ) : ∀ b br, br ≤ 1 → (∀ d ∈ a, d < BASE) →
    (∀ d ∈ b, d < BASE) → ∀ x ∈ subLoop a b br, x < BASE := by
  induction a with
  | nil => intro b br _ _ _ x hx; simp [subLoop] at hx
  | cons d ds ih =>
    intro b br hbr ha hb
    have hd : d < BASE := ha d (by simp)
    cases b with
    | nil =>
      show ∀ x ∈ (if d < br then (d + BASE - br) :: subLoop ds [] 1
        else (d - br) :: ds), x < BASE
      by_cases h : d < br
      · rw [if_pos h]
        intro x hx
        rw [List.mem_cons] at hx
        cases hx with
        | inl h1 => rw [h1]; omega
        | inr h2 => exact ih [] 1 (by norm_num) (fun y hy => ha y (by simp [hy])) (by simp) x h2
      · rw [if_neg h]
        intro x hx
        rw [List.mem_cons] at hx
        cases hx with
        | inl h1 => rw [h1]; omega
        | inr h2 => exact ha x (by simp [h2])
    | cons e es =>
      have he : e < BASE := hb e (by simp)
      show ∀ x ∈ (if d < e + br then (d + BASE - (e + br)) :: subLoop ds es 1
        else (d - (e + br)) :: subLoop ds es 0), x < BASE
      by_cases h : d < e + br
      · rw [if_pos h]
        intro x hx
        rw [List.mem_cons] at hx
        cases hx with
        | inl h1 => rw [h1]; omega
        | inr h2 =>
          exact ih es 1 (by norm_num) (fun y hy => ha y (by simp [hy]))
            (fun y hy => hb y (by simp [hy])) x h2
      · rw [if_neg h]
        intro x hx
        rw [List.mem_cons] at hx
        cases hx with
        | inl h1 => rw [h1]; omega
        | inr h2 =>
          exact ih es 0 (by norm_num) (fun y hy => ha y (by simp [hy]))
            (fun y hy => hb y (by simp [hy])) x h2

theorem subLoop_ne_nil (a b : List ℕ) (br : ℕ) (h : a ≠ []) : subLoop a b br ≠ [] := by
  cases a with
  | nil => exact absurd rfl h
  | cons d ds =>
    cases b with
    | nil =>
      show (if d < br then (d + BASE - br) :: subLoop ds [] 1 else (d - br) :: ds) ≠ []
      by_cases hc : d < br <;> simp [hc]
    | cons e es =>
      show (if d < e + br then (d + BASE - (e + br)) :: subLoop ds es 1
        else (d - (e + br)) :: subLoop ds es 0) ≠ []
      by_cases hc : d < e + br <;> simp [hc]

theorem subUIntAux_val (a b : List ℕ) (ha : ∀ d ∈ a, d < BASE) (hb : ∀ d ∈ b, d < BASE)
    (hle : val b ≤ val a) : val (subUIntAux a b) + val b = val a := by
  unfold subUIntAux
  rw [val_normalize]
  have := subLoop_val a b 0 (by norm_num) ha hb (by omega)
  omega

theorem valid_subUIntAux (a b : List ℕ) (hne : a ≠ []) (ha : ∀ d ∈ a, d < BASE)
    (hb : ∀ d ∈ b, d < BASE) : Valid (subUIntAux a b) :=
  valid_normalize _ (subLoop_ne_nil a b 0 hne) (subLoop_lt a b 0 (by norm_num) ha hb)

theorem subNat_val (l : List ℕ) (num : ℕ) (hl : ∀ d ∈ l, d < BASE) (hle : num ≤ val l) :
    val (subNat l num) + num = val l := by
  unfold subNat
  by_cases h : num < BASE
  · rw [if_pos h, val_normalize]
    exact subCarry_val l num (by omega) hle
  · rw [if_neg h]
    have := subUIntAux_val l (ofNat num) hl (valid_ofNat num).2.1 (by rw [val_ofNat]; exact hle)
    rwa [val_ofNat] at this

theorem valid_subNat (l : List ℕ) (num : ℕ) (hne : l ≠ []) (hl : ∀ d ∈ l, d < BASE) :
    Valid (subNat l num) := by
  unfold subNat
  by_cases h : num < BASE
  · rw [if_pos h]
    exact valid_normalize _ (subCarry_ne_nil l num hne) (subCarry_lt l num (by omega) hl)
  · rw [if_neg h]
    exact valid_subUIntAux l _ hne hl (valid_ofNat num).2.1

theorem subUInt_val (a b : List ℕ) (ha : ∀ d ∈ a, d < BASE) (hb : ∀ d ∈ b, d < BASE)
    (hle : val b ≤ val a) : val (subUInt a b) + val b = val a := by
  unfold subUInt
  by_cases h : b.length = 1
  · obtain ⟨x, rfl⟩ : ∃ x, b = [x] := by
      cases b with
      | nil => simp at h
      | cons y ys =>
        cases ys with
        | nil => exact ⟨y, rfl⟩
        | cons z zs => simp at h
    rw [if_pos h]
    have hx : val [x] = x := by simp [val]
    rw [hx] at hle ⊢
    exact subNat_val a x ha hle
  · rw [if_neg h]
    exact subUIntAux_val a b ha hb hle

theorem valid_subUInt (a b : List ℕ) (hne : a ≠ []) (ha : ∀ d ∈ a, d < BASE)
    (hb : ∀ d ∈ b, d < BASE) : Valid (subUInt a b) := by
  unfold subUInt
  by_cases h : b.length = 1
  · rw [if_pos h]
    exact valid_subNat a _ hne ha
  · rw [if_neg h]
    exact valid_subUIntAux a b hne ha hb

end BigU

namespace BigU

/-- The carry loop of `UInt::operator*=(int64_t num)` (lines 200-207) for
`num < BASE`: `rem += d * num; d = rem % BASE; rem /= BASE`, and a positive
final carry (always `< BASE`) is pushed as one extra digit. -/
def mulCarry : List ℕ → ℕ → ℕ → List ℕ
  | [], _, r => if r = 0 then [] else [r]
  | d :: rest, m, r => ((d * m + r) % BASE) :: mulCarry rest m ((d * m + r) / BASE)

/-- The inner loop of `UInt::slow_mult` (lines 220-227) for one digit
`d = this->digits[i]`: running over `other`'s digits `bj` with carry `rem`,
`rem += temp[i+j] + d * bj; temp[i+j] = rem % BASE; rem /= BASE`; after
`other` is exhausted, `if (rem > 0) temp[i+s2] += rem`.  The first argument
is the suffix `temp[i..]` of the accumulator.  (A `temp` shorter than
`other` plus one can only arise outside the C++ preconditions and is padded
with zeros.) -/
def innerLoop : List ℕ → List ℕ → ℕ → ℕ → List ℕ
  | temp, [], _, r =>
    (match temp, r with
     | [], 0 => []
     | [], r' + 1 => [r' + 1]
     | t :: ts, 0 => t :: ts
     | t :: ts, r' + 1 => (t + (r' + 1)) :: ts)
  | [], bj :: bs, d, r =>
      ((r + 0 + d * bj) % BASE) :: innerLoop [] bs d ((r + 0 + d * bj) / BASE)
  | t :: ts, bj :: bs, d, r =>
      ((r + t + d * bj) % BASE) :: innerLoop ts bs d ((r + t + d * bj) / BASE)

/-- The outer loop of `UInt::slow_mult` (lines 219-228): for each digit of
`this` (low to high) fold its scaled copy of `other` into the suffix of the
accumulator `temp` starting at offset `i`; digits below the current offset
are final. -/
def outerLoop : List ℕ → List ℕ → List ℕ → List ℕ
  | [], _, temp => temp
  | ai :: arest, b, temp =>
    match innerLoop temp b ai 0 with
    | [] => []
    | t0 :: trest => t0 :: outerLoop arest b trest

/-- The general (multi-digit `other`) path of `UInt::slow_mult` (lines
216-229): schoolbook product into a zero accumulator of size `s1 + s2`,
returned through the digit-vector constructor (which normalizes). -/
def slowAux (a b : List ℕ) : List ℕ :=
  normalize (outerLoop a b (List.replicate (a.length + b.length) 0))

/-- The `while (pow < temp) pow *= 2;` loop of `UInt::mult` (lines 349-350)
and the identical padding loop of `fast_mult` (lines 301-302), with fuel
(first argument); fuel `t` always suffices because `pow` doubles from `1`
and `t ≤ 2^t`. -/
def pow2whileF : ℕ → ℕ → ℕ → ℕ
  | 0, _, p => p
  | f + 1, t, p => if p < t then pow2whileF f t (2 * p) else p

/-- The padded FFT length computed by `UInt::mult` (lines 348-351): double
the smallest power of two that is at least `3 * max(len1, len2)`. -/
def padLen (len1 len2 : ℕ) : ℕ :=
  2 * pow2whileF (3 * max len1 len2) (3 * max len1 len2) 1

/-- Base-two logarithm with fuel (`n` itself always suffices); this is the
`log2` appearing in the spectral cost estimate of `UInt::mult`. -/
def log2F : ℕ → ℕ → ℕ
  | 0, _ => 0
  | f + 1, n => if 2 ≤ n then log2F f (n / 2) + 1 else 0

/-- Base-two logarithm (`⌊log₂ n⌋`, with `log2N 0 = 0`). -/
def log2N (n : ℕ) : ℕ := log2F n n

/-- The crossover test of `UInt::mult` (lines 346-354): estimate `op1 =
len1 * len2` (schoolbook) against `op2 = 3 * pow * log2(pow)` (spectral) and
choose the spectral method when `op1 >= 15 * op2`.  The C++ computes
`3 * pow * std::log(pow) / std::log(2)` in floating point and truncates to
`int64_t`; since `pow` is a power of two the real-arithmetic value of that
expression is exactly the integer `3 * pow * log2(pow)`, which is what we
use. -/
def multSelect (len1 len2 : ℕ) : Bool :=
  15 * (3 * padLen len1 len2 * log2N (padLen len1 len2)) ≤ len1 * len2

/-- The `prepare` lambda of `UInt::fast_mult` (lines 286-295): split every
base-`10^9` digit into three base-`1000` digits (low to high). -/
def prepare1000 : List ℕ → List ℕ
  | [] => []
  | d :: rest => d % 1000 :: d / 1000 % 1000 :: d / 1000000 :: prepare1000 rest

/-- Numeric value of a little-endian base-`1000` digit list (the abstraction
for the FFT coefficient vectors of `fast_mult`). -/
def val1000 : List ℕ → ℕ
  | [] => 0
  | d :: rest => d + 1000 * val1000 rest

/-- Pointwise sum of two coefficient lists (missing entries are `0`). -/
def pAdd : List ℕ → List ℕ → List ℕ
  | [], ys => ys
  | xs, [] => xs
  | x :: xs, y :: ys => (x + y) :: pAdd xs ys

/-- Acyclic convolution of two coefficient lists.  In exact (real/complex)
arithmetic the forward FFTs, the pointwise products and the inverse FFT of
`UInt::fast_mult` (lines 308-320) compute precisely this convolution of the
padded inputs: the cyclic wrap-around of the length-`n` FFT convolution
vanishes because the convolution's support (`< 3|a| + 3|b|`) fits inside
`n`, and the `+ 0.5` rounding recovers the integer coefficients exactly
whenever the floating-point error is below `1/2` (the floating-point error
itself has no exact embedding; it is the subject of the spectral-path
equivalence discussion). -/
def convL : List ℕ → List ℕ → List ℕ
  | [], _ => []
  | x :: xs, b => pAdd (b.map (fun e => x * e)) (0 :: convL xs b)

/-- `fa.resize(n)` / `fb.resize(n)` (lines 304-305): pad with zeros up to
length `n`. -/
def padTo (n : ℕ) (l : List ℕ) : List ℕ := l ++ List.replicate (n - l.length) 0

/-- Base-`1000` digit expansion with fuel, mirroring `toDigitsF`; this is
what the carry loop of `fast_mult` emits once the original `n` entries are
exhausted (`temp.push_back(0); temp[i] += carry; ...` while `carry > 0`). -/
def toDigits1000F : ℕ → ℕ → List ℕ
  | 0, n => [n % 1000]
  | f + 1, n => if n / 1000 = 0 then [n % 1000] else n % 1000 :: toDigits1000F f (n / 1000)

/-- Base-`1000` digits of `n` (at least one digit). -/
def toDigits1000 (n : ℕ) : List ℕ := toDigits1000F n n

/-- The carry-propagation loop of `UInt::fast_mult` (lines 322-329):
`temp[i] += carry; carry = temp[i] / 1000; temp[i] -= carry * 1000`, running
while entries or a carry remain. -/
def carryRun : List ℕ → ℕ → List ℕ
  | [], c => if c = 0 then [] else toDigits1000 c
  | t :: ts, c => ((t + c) % 1000) :: carryRun ts ((t + c) / 1000)

/-- The recombination loop of `UInt::fast_mult` (lines 334-339): take the
base-`1000` digits three at a time (missing high entries are `0`) and form
one base-`10^9` digit `c + 1000 * (b + 1000 * a)`. -/
def chunk3 : List ℕ → List ℕ
  | [] => []
  | [c] => [c]
  | [c, b] => [c + 1000 * b]
  | c :: b :: a :: rest => (c + 1000 * (b + 1000 * a)) :: chunk3 rest

/-- The general (multi-digit `other`) path of `UInt::fast_mult` (lines
283-340), with the floating-point FFT replaced by the exact convolution it
computes in exact arithmetic (see `convL`): split both operands to base
`1000`, pad to the power-of-two length `n`, convolve, round (exact here),
propagate carries, read back the first `n` entries in groups of three, and
normalize through the digit-vector constructor. -/
def fastCore (n : ℕ) (fa fb : List ℕ) : List ℕ :=
  chunk3 ((carryRun (padTo n (convL fa fb)) 0).take n)

/-- The padded length and final normalization of `UInt::fast_mult`: `n` is
twice the smallest power of two at least `max(|fa|, |fb|)` (lines 301-303),
and the digit-vector constructor at line 340 normalizes the result. -/
def fastAux (x y : List ℕ) : List ℕ :=
  normalize (fastCore
    (2 * pow2whileF (max (prepare1000 x).length (prepare1000 y).length)
      (max (prepare1000 x).length (prepare1000 y).length) 1)
    (prepare1000 x) (prepare1000 y))

/-- `UInt::mult` (lines 344-355) as invoked on a multi-digit second operand
(which skips the single-digit shortcut inside `slow_mult` / `fast_mult`):
selector plus the two cores. -/
def multAux (a b : List ℕ) : List ℕ :=
  if multSelect a.length b.length then fastAux a b else slowAux a b

/-- `UInt::operator*=(int64_t num)` (lines 195-209).  For `num >= BASE` the
C++ escalates `*this *= UInt(num)`, which runs `mult` on a second operand of
at least two digits, so the single-digit shortcuts do not fire and the
selector plus cores run — modelled by `multAux`. -/
def mulNat (a : List ℕ) (num : ℕ) : List ℕ :=
  if num < BASE then normalize (mulCarry a num 0) else multAux a (ofNat num)

/-- `UInt::slow_mult` (lines 212-230): single-digit `other` delegates to
`operator*(const UInt&, int64_t)`, i.e. `UInt(a) *= d`; otherwise the
schoolbook core runs. -/
def slow_mult (a b : List ℕ) : List ℕ :=
  if b.length = 1 then mulNat a (b.headD 0) else slowAux a b

/-- `UInt::fast_mult` (lines 233-341): single-digit `other` delegates to
`operator*(const UInt&, int64_t)`; otherwise the spectral core runs. -/
def fast_mult (a b : List ℕ) : List ℕ :=
  if b.length = 1 then mulNat a (b.headD 0) else fastAux a b

/-- `UInt::mult` (lines 344-355), the combined multiplication used by
`operator*` (lines 459-461): `op1 >= 15 * op2 ? fast_mult(other) :
slow_mult(other)`. -/
def multU (a b : List ℕ) : List ℕ :=
  if multSelect a.length b.length then fast_mult a b else slow_mult a b

end BigU

namespace BigU

theorem mulCarry_val (l : List ℕ) : ∀ m r, val (mulCarry l m r) = val l * m + r := by
  induction l with
  | nil =>
    intro m r
    show val (if r = 0 then [] else [r]) = _
    by_cases h : r = 0 <;> simp [h, val]
  | cons d rest ih =>
    intro m r
    show val (((d * m + r) % BASE) :: mulCarry rest m ((d * m + r) / BASE)) = _
    simp only [val, ih]
    have := Nat.mod_add_div (d * m + r) BASE
    simp only [BASE] at *
    ring_nf
    nlinarith [this]

theorem mulCarry_lt (l : List ℕ) : ∀ m r, m < BASE → r < BASE → (∀ d ∈ l, d < BASE) →
    ∀ x ∈ mulCarry l m r, x < BASE := by
  induction l with
  | nil =>
    intro m r _ hr _
    show ∀ x ∈ (if r = 0 then ([] : List ℕ) else [r]), x < BASE
    by_cases h : r = 0 <;> simp [h] <;> omega
  | cons d rest ih =>
    intro m r hm hr hl
    have hd : d < BASE := hl d (by simp)
    intro x hx
    show x < BASE
    have hx' : x ∈ ((d * m + r) % BASE) :: mulCarry rest m ((d * m + r) / BASE) := hx
    rw [List.mem_cons] at hx'
    cases hx' with
    | inl h1 => rw [h1]; exact Nat.mod_lt _ (by norm_num [BASE])
    | inr h2 =>
      have hcar : (d * m + r) / BASE < BASE := by
        rw [Nat.div_lt_iff_lt_mul (by norm_num [BASE] : 0 < BASE)]
        calc d * m + r < d * m + BASE := by omega
          _ ≤ d * BASE + BASE := by
              have := Nat.mul_le_mul_left d (le_of_lt hm)
              omega
          _ = (d + 1) * BASE := by ring
          _ ≤ BASE * BASE := Nat.mul_le_mul_right _ hd
      exact ih m _ hm hcar (fun y hy => hl y (by simp [hy])) x h2

theorem mulCarry_ne_nil (l : List ℕ) (m r : ℕ) (h : l ≠ []) : mulCarry l m r ≠ [] := by
  cases l with
  | nil => exact absurd rfl h
  | cons d rest => simp [mulCarry]

theorem innerLoop_val (b : List ℕ) : ∀ temp d r,
    val (innerLoop temp b d r) = val temp + d * val b + r := by
  induction b with
  | nil =>
    intro temp d r
    match temp, r with
    | [], 0 => simp [innerLoop, val]
    | [], r' + 1 => simp [innerLoop, val]
    | t :: ts, 0 => simp [innerLoop, val]
    | t :: ts, r' + 1 =>
      show val ((t + (r' + 1)) :: ts) = _
      simp [val]
      ring
  | cons bj bs ih =>
    intro temp d r
    cases temp with
    | nil =>
      show val (((r + 0 + d * bj) % BASE) :: innerLoop [] bs d ((r + 0 + d * bj) / BASE)) = _
      simp only [val, ih]
      have := Nat.mod_add_div (r + 0 + d * bj) BASE
      simp only [val, BASE] at *
      ring_nf
      ring_nf at this
      nlinarith [this]
    | cons t ts =>
      show val (((r + t + d * bj) % BASE) :: innerLoop ts bs d ((r + t + d * bj) / BASE)) = _
      simp only [val, ih]
      have := Nat.mod_add_div (r + t + d * bj) BASE
      simp only [val, BASE] at *
      ring_nf
      ring_nf at this
      nlinarith [this]

theorem innerLoop_nil (temp b : List ℕ) (d r : ℕ) (h : innerLoop temp b d r = []) :
    temp = [] ∧ b = [] ∧ r = 0 := by
  cases b with
  | nil =>
    match temp, r with
    | [], 0 => exact ⟨rfl, rfl, rfl⟩
    | [], r' + 1 => simp [innerLoop] at h
    | t :: ts, 0 => simp [innerLoop] at h
    | t :: ts, r' + 1 => simp [innerLoop] at h
  | cons bj bs =>
    cases temp with
    | nil => simp [innerLoop] at h
    | cons t ts => simp [innerLoop] at h

theorem outerLoop_val (as : List ℕ) : ∀ (b temp : List ℕ),
    val (outerLoop as b temp) = val temp + val as * val b := by
  induction as with
  | nil => intro b temp; simp [outerLoop, val]
  | cons ai arest ih =>
    intro b temp
    show val (match innerLoop temp b ai 0 with
      | [] => []
      | t0 :: trest => t0 :: outerLoop arest b trest) = _
    cases hL : innerLoop temp b ai 0 with
    | nil =>
      obtain ⟨h1, h2, _⟩ := innerLoop_nil temp b ai 0 hL
      subst h1; subst h2
      simp [val]
    | cons t0 trest =>
      have hv := innerLoop_val b temp ai 0
      rw [hL] at hv
      simp only [val, ih]
      simp only [val] at hv
      have expand : t0 + BASE * (val trest + val arest * val b)
          = (t0 + BASE * val trest) + BASE * (val arest * val b) := by ring
      rw [expand, hv]
      ring

theorem val_replicate_zero (n : ℕ) : val (List.replicate n 0) = 0 := by
  induction n with
  | zero => rfl
  | succ k ih => simp [List.replicate, val, ih]

theorem slowAux_val (a b : List ℕ) : val (slowAux a b) = val a * val b := by
  unfold slowAux
  rw [val_normalize, outerLoop_val, val_replicate_zero]
  omega

end BigU

namespace BigU

theorem div_BASE_lt (s : ℕ) (h : s < BASE * BASE) : s / BASE < BASE := by
  rw [Nat.div_lt_iff_lt_mul (by norm_num [BASE] : 0 < BASE)]
  exact h

theorem innerLoop_good (b : List ℕ) : ∀ temp d r, d < BASE → r < BASE →
    (∀ x ∈ b, x < BASE) → (∀ x ∈ temp, x < BASE) →
    (∀ j, b.length ≤ j → temp.getD j 0 = 0) →
    (∀ x ∈ innerLoop temp b d r, x < BASE) ∧
    (∀ j, b.length + 1 ≤ j → (innerLoop temp b d r).getD j 0 = 0) := by
  induction b with
  | nil =>
    intro temp d r hd hr _ htemp hzero
    match temp, r with
    | [], 0 =>
      refine ⟨?_, ?_⟩
      · intro x hx; simp [innerLoop] at hx
      · intro j _; simp [innerLoop]
    | [], r' + 1 =>
      refine ⟨?_, ?_⟩
      · intro x hx
        simp only [innerLoop, List.mem_singleton] at hx
        rw [hx]; exact hr
      · intro j hj
        obtain ⟨k, rfl⟩ : ∃ k, j = k + 1 := ⟨j - 1, by omega⟩
        simp [innerLoop]
    | t :: ts, 0 =>
      refine ⟨?_, ?_⟩
      · intro x hx
        exact htemp x hx
      · intro j hj
        exact hzero j (by omega)
    | t :: ts, r' + 1 =>
      have ht0 : t = 0 := by
        have := hzero 0 (by simp)
        simpa using this
      refine ⟨?_, ?_⟩
      · intro x hx
        have hx' : x ∈ (t + (r' + 1)) :: ts := hx
        rw [List.mem_cons] at hx'
        cases hx' with
        | inl h1 => rw [h1, ht0]; simpa using hr
        | inr h2 => exact htemp x (by simp [h2])
      · intro j hj
        obtain ⟨k, rfl⟩ : ∃ k, j = k + 1 := ⟨j - 1, by omega⟩
        show ((t + (r' + 1)) :: ts).getD (k + 1) 0 = 0
        rw [List.getD_cons_succ]
        have := hzero (k + 1) (by omega)
        simpa using this
  | cons bj bs ih =>
    intro temp d r hd hr hb htemp hzero
    have hbj : bj < BASE := hb bj (by simp)
    cases temp with
    | nil =>
      have hs : r + 0 + d * bj < BASE * BASE := by
        have h1 : d * bj ≤ (BASE - 1) * (BASE - 1) := by
          exact Nat.mul_le_mul (by omega) (by omega)
        simp only [BASE] at *
        omega
      have hcar : (r + 0 + d * bj) / BASE < BASE := div_BASE_lt _ hs
      have hih := ih [] d ((r + 0 + d * bj) / BASE) hd hcar
        (fun y hy => hb y (by simp [hy])) (by simp) (by simp)
      refine ⟨?_, ?_⟩
      · intro x hx
        have hx' : x ∈ ((r + 0 + d * bj) % BASE)
            :: innerLoop [] bs d ((r + 0 + d * bj) / BASE) := hx
        rw [List.mem_cons] at hx'
        cases hx' with
        | inl h1 => rw [h1]; exact Nat.mod_lt _ (by norm_num [BASE])
        | inr h2 => exact hih.1 x h2
      · intro j hj
        obtain ⟨k, rfl⟩ : ∃ k, j = k + 1 := ⟨j - 1, by omega⟩
        show (((r + 0 + d * bj) % BASE)
            :: innerLoop [] bs d ((r + 0 + d * bj) / BASE)).getD (k + 1) 0 = 0
        rw [List.getD_cons_succ]
        exact hih.2 k (by simp at hj; omega)
    | cons t ts =>
      have ht : t < BASE := htemp t (by simp)
      have hs : r + t + d * bj < BASE * BASE := by
        have h1 : d * bj ≤ (BASE - 1) * (BASE - 1) := by
          exact Nat.mul_le_mul (by omega) (by omega)
        simp only [BASE] at *
        omega
      have hcar : (r + t + d * bj) / BASE < BASE := div_BASE_lt _ hs
      have hih := ih ts d ((r + t + d * bj) / BASE) hd hcar
        (fun y hy => hb y (by simp [hy])) (fun y hy => htemp y (by simp [hy]))
        (by
          intro j hj
          have := hzero (j + 1) (by simp; omega)
          simpa using this)
      refine ⟨?_, ?_⟩
      · intro x hx
        have hx' : x ∈ ((r + t + d * bj) % BASE)
            :: innerLoop ts bs d ((r + t + d * bj) / BASE) := hx
        rw [List.mem_cons] at hx'
        cases hx' with
        | inl h1 => rw [h1]; exact Nat.mod_lt _ (by norm_num [BASE])
        | inr h2 => exact hih.1 x h2
      · intro j hj
        obtain ⟨k, rfl⟩ : ∃ k, j = k + 1 := ⟨j - 1, by omega⟩
        show (((r + t + d * bj) % BASE)
            :: innerLoop ts bs d ((r + t + d * bj) / BASE)).getD (k + 1) 0 = 0
        rw [List.getD_cons_succ]
        exact hih.2 k (by simp at hj; omega)

theorem innerLoop_ne_nil (temp b : List ℕ) (d r : ℕ) (h : temp ≠ []) :
    innerLoop temp b d r ≠ [] := by
  intro hc
  exact h (innerLoop_nil temp b d r hc).1

theorem outerLoop_good (as : List ℕ) : ∀ (b temp : List ℕ), (∀ x ∈ as, x < BASE) →
    (∀ x ∈ b, x < BASE) → (∀ x ∈ temp, x < BASE) →
    (∀ j, b.length ≤ j → temp.getD j 0 = 0) →
    ∀ x ∈ outerLoop as b temp, x < BASE := by
  induction as with
  | nil =>
    intro b temp _ _ htemp _ x hx
    exact htemp x hx
  | cons ai arest ih =>
    intro b temp has hb htemp hzero x hx
    have hai : ai < BASE := has ai (by simp)
    have hgood := innerLoop_good b temp ai 0 hai (by norm_num [BASE]) hb htemp hzero
    revert hx
    show x ∈ (match innerLoop temp b ai 0 with
      | [] => []
      | t0 :: trest => t0 :: outerLoop arest b trest) → x < BASE
    cases hL : innerLoop temp b ai 0 with
    | nil => intro hx; simp at hx
    | cons t0 trest =>
      intro hx
      rw [List.mem_cons] at hx
      cases hx with
      | inl h1 =>
        rw [h1]
        exact hgood.1 t0 (by rw [hL]; simp)
      | inr h2 =>
        refine ih b trest (fun y hy => has y (by simp [hy])) hb ?_ ?_ x h2
        · intro y hy
          exact hgood.1 y (by rw [hL]; simp [hy])
        · intro j hj
          have := hgood.2 (j + 1) (by omega)
          rw [hL] at this
          simpa using this

theorem outerLoop_ne_nil (as b temp : List ℕ) (h : temp ≠ []) :
    outerLoop as b temp ≠ [] := by
  cases as with
  | nil => exact h
  | cons ai arest =>
    show (match innerLoop temp b ai 0 with
      | [] => []
      | t0 :: trest => t0 :: outerLoop arest b trest) ≠ []
    cases hL : innerLoop temp b ai 0 with
    | nil => exact absurd hL (innerLoop_ne_nil temp b ai 0 h)
    | cons t0 trest => simp

theorem replicate_getD (n j : ℕ) : (List.replicate n (0:ℕ)).getD j 0 = 0 := by
  induction n generalizing j with
  | zero => simp
  | succ k ih =>
    cases j with
    | zero => simp [List.replicate]
    | succ j' => simp [List.replicate, ih]

theorem valid_slowAux (a b : List ℕ) (hne : a ≠ []) (ha : ∀ d ∈ a, d < BASE)
    (hb : ∀ d ∈ b, d < BASE) : Valid (slowAux a b) := by
  unfold slowAux
  have hrep : List.replicate (a.length + b.length) (0:ℕ) ≠ [] := by
    have : 1 ≤ a.length := by
      cases a with
      | nil => exact absurd rfl hne
      | cons x xs => simp
    have hlen : 0 < (List.replicate (a.length + b.length) (0:ℕ)).length := by
      simp
      omega
    exact List.length_pos.mp hlen
  refine valid_normalize _ (outerLoop_ne_nil a b _ hrep) ?_
  refine outerLoop_good a b _ ha hb ?_ ?_
  · intro x hx
    rw [List.eq_of_mem_replicate hx]
    norm_num [BASE]
  · intro j _
    exact replicate_getD _ j

end BigU

namespace BigU

theorem toDigits1000F_fuel (f : ℕ) : ∀ g n, n ≤ f → n ≤ g →
    toDigits1000F f n = toDigits1000F g n := by
  induction f with
  | zero =>
    intro g n hf _
    interval_cases n
    cases g <;> simp [toDigits1000F]
  | succ f ih =>
    intro g n hf hg
    match g with
    | 0 =>
      interval_cases n
      simp [toDigits1000F]
    | g + 1 =>
      simp only [toDigits1000F]
      by_cases h : n / 1000 = 0
      · simp [h]
      · have hn : 0 < n := by
          rcases Nat.eq_zero_or_pos n with h0 | h0
          · exact absurd (by simp [h0]) h
          · exact h0
        have hlt : n / 1000 < n := Nat.div_lt_self hn (by norm_num)
        simp only [h, if_false]
        rw [ih g (n / 1000) (by omega) (by omega)]

theorem toDigits1000_eq (n : ℕ) :
    toDigits1000 n = if n / 1000 = 0 then [n % 1000]
      else n % 1000 :: toDigits1000 (n / 1000) := by
  rcases Nat.eq_zero_or_pos n with h0 | h0
  · subst h0; simp [toDigits1000, toDigits1000F]
  · show toDigits1000F n n = _
    obtain ⟨m, rfl⟩ : ∃ m, n = m + 1 := ⟨n - 1, by omega⟩
    simp only [toDigits1000F]
    by_cases h : (m + 1) / 1000 = 0
    · simp [h]
    · have hlt : (m + 1) / 1000 < m + 1 := Nat.div_lt_self (by omega) (by norm_num)
      simp only [h, if_false]
      rw [toDigits1000F_fuel m ((m+1)/1000) ((m+1)/1000) (by omega) le_rfl]
      rfl

theorem val1000_toDigits1000 (n : ℕ) : val1000 (toDigits1000 n) = n := by
  induction n using Nat.strong_induction_on with
  | _ n ih =>
    rw [toDigits1000_eq]
    by_cases h : n / 1000 = 0
    · have : n < 1000 := by
        by_contra hge
        push_neg at hge
        exact absurd h (Nat.div_pos hge (by norm_num)).ne'
      simp [h, val1000, Nat.mod_eq_of_lt this]
    · have hn : 0 < n := by
        rcases Nat.eq_zero_or_pos n with h0 | h0
        · exact absurd (by simp [h0]) h
        · exact h0
      have hlt : n / 1000 < n := Nat.div_lt_self hn (by norm_num)
      simp only [h, if_false, val1000, ih _ hlt]
      exact Nat.mod_add_div n 1000

theorem mem_toDigits1000_lt (n : ℕ) : ∀ d ∈ toDigits1000 n, d < 1000 := by
  induction n using Nat.strong_induction_on with
  | _ n ih =>
    rw [toDigits1000_eq]
    by_cases h : n / 1000 = 0
    · simp [h]
      exact Nat.mod_lt _ (by norm_num)
    · have hn : 0 < n := by
        rcases Nat.eq_zero_or_pos n with h0 | h0
        · exact absurd (by simp [h0]) h
        · exact h0
      have hlt : n / 1000 < n := Nat.div_lt_self hn (by norm_num)
      simp only [h, if_false, List.mem_cons]
      rintro d (rfl | hd)
      · exact Nat.mod_lt _ (by norm_num)
      · exact ih _ hlt d hd

theorem val1000_prepare1000 (l : List ℕ) : val1000 (prepare1000 l) = val l := by
  induction l with
  | nil => rfl
  | cons d rest ih =>
    show val1000 (d % 1000 :: d / 1000 % 1000 :: d / 1000000 :: prepare1000 rest) = _
    simp only [val1000, val, ih, BASE]
    omega

theorem length_prepare1000 (l : List ℕ) : (prepare1000 l).length = 3 * l.length := by
  induction l with
  | nil => rfl
  | cons d rest ih =>
    show (d % 1000 :: d / 1000 % 1000 :: d / 1000000 :: prepare1000 rest).length = _
    simp [ih]
    omega

theorem pAdd_val1000 (u : List ℕ) : ∀ v, val1000 (pAdd u v) = val1000 u + val1000 v := by
  induction u with
  | nil => intro v; simp [pAdd, val1000]
  | cons x xs ih =>
    intro v
    cases v with
    | nil => simp [pAdd, val1000]
    | cons y ys =>
      show val1000 ((x + y) :: pAdd xs ys) = _
      simp only [val1000, ih]
      ring

theorem pAdd_length (u : List ℕ) : ∀ v, (pAdd u v).length = max u.length v.length := by
  induction u with
  | nil => intro v; simp [pAdd]
  | cons x xs ih =>
    intro v
    cases v with
    | nil => simp [pAdd]
    | cons y ys =>
      show ((x + y) :: pAdd xs ys).length = _
      simp [ih]
      omega

theorem map_scale_val1000 (x : ℕ) (b : List ℕ) :
    val1000 (b.map (fun e => x * e)) = x * val1000 b := by
  induction b with
  | nil => simp [val1000]
  | cons e es ih =>
    simp only [List.map_cons, val1000, ih]
    ring

theorem convL_val1000 (a : List ℕ) : ∀ b, val1000 (convL a b) = val1000 a * val1000 b := by
  induction a with
  | nil => intro b; simp [convL, val1000]
  | cons x xs ih =>
    intro b
    show val1000 (pAdd (b.map (fun e => x * e)) (0 :: convL xs b)) = _
    rw [pAdd_val1000, map_scale_val1000]
    simp only [val1000, ih]
    ring

theorem convL_length_le (a : List ℕ) : ∀ b, (convL a b).length ≤ a.length + b.length := by
  induction a with
  | nil => intro b; simp [convL]
  | cons x xs ih =>
    intro b
    show (pAdd (b.map (fun e => x * e)) (0 :: convL xs b)).length ≤ _
    rw [pAdd_length]
    simp only [List.length_map, List.length_cons]
    have := ih b
    omega

theorem val1000_append (l1 l2 : List ℕ) :
    val1000 (l1 ++ l2) = val1000 l1 + 1000 ^ l1.length * val1000 l2 := by
  induction l1 with
  | nil => simp [val1000]
  | cons d rest ih => simp [val1000, ih, pow_succ]; ring

theorem val1000_replicate_zero (n : ℕ) : val1000 (List.replicate n 0) = 0 := by
  induction n with
  | zero => rfl
  | succ k ih => simp [List.replicate, val1000, ih]

theorem padTo_val1000 (n : ℕ) (l : List ℕ) : val1000 (padTo n l) = val1000 l := by
  unfold padTo
  rw [val1000_append, val1000_replicate_zero]
  ring

theorem padTo_length (n : ℕ) (l : List ℕ) (h : l.length ≤ n) : (padTo n l).length = n := by
  unfold padTo
  simp
  omega

theorem val1000_lt_pow (l : List ℕ) (hb : ∀ d ∈ l, d < 1000) :
    val1000 l < 1000 ^ l.length := by
  induction l with
  | nil => simp [val1000]
  | cons d rest ih =>
    have h1 : d < 1000 := hb d (by simp)
    have h2 : val1000 rest < 1000 ^ rest.length := ih (fun x hx => hb x (by simp [hx]))
    simp only [val1000, List.length_cons, pow_succ]
    calc d + 1000 * val1000 rest < 1000 + 1000 * val1000 rest := by omega
      _ = 1000 * (1 + val1000 rest) := by ring
      _ ≤ 1000 * 1000 ^ rest.length := Nat.mul_le_mul_left _ (by omega)
      _ = 1000 ^ rest.length * 1000 := by ring

end BigU

namespace BigU

theorem carryRun_val1000 (l : List ℕ) : ∀ c, val1000 (carryRun l c) = val1000 l + c := by
  induction l with
  | nil =>
    intro c
    show val1000 (if c = 0 then [] else toDigits1000 c) = _
    by_cases h : c = 0
    · simp [h, val1000]
    · simp [h, val1000_toDigits1000, val1000]
  | cons t ts ih =>
    intro c
    show val1000 (((t + c) % 1000) :: carryRun ts ((t + c) / 1000)) = _
    simp only [val1000, ih]
    have := Nat.mod_add_div (t + c) 1000
    omega

theorem carryRun_lt (l : List ℕ) : ∀ c, ∀ x ∈ carryRun l c, x < 1000 := by
  induction l with
  | nil =>
    intro c x hx
    by_cases h : c = 0
    · simp [carryRun, h] at hx
    · have heq : carryRun [] c = toDigits1000 c := by simp [carryRun, h]
      rw [heq] at hx
      exact mem_toDigits1000_lt c x hx
  | cons t ts ih =>
    intro c x hx
    have hx' : x ∈ ((t + c) % 1000) :: carryRun ts ((t + c) / 1000) := hx
    rw [List.mem_cons] at hx'
    cases hx' with
    | inl h1 => rw [h1]; exact Nat.mod_lt _ (by norm_num)
    | inr h2 => exact ih _ x h2

theorem carryRun_length (l : List ℕ) : ∀ c, val1000 l + c < 1000 ^ l.length →
    (carryRun l c).length = l.length := by
  induction l with
  | nil =>
    intro c hc
    simp only [val1000, List.length_nil, pow_zero] at hc
    have : c = 0 := by omega
    simp [carryRun, this]
  | cons t ts ih =>
    intro c hc
    show (((t + c) % 1000) :: carryRun ts ((t + c) / 1000)).length = _
    simp only [List.length_cons]
    rw [ih ((t + c) / 1000)]
    simp only [val1000, List.length_cons, pow_succ] at hc ⊢
    have h1 := Nat.mod_add_div (t + c) 1000
    have h2 : 1000 * (val1000 ts + (t + c) / 1000) < 1000 * 1000 ^ ts.length := by
      have : 1000 * val1000 ts + (t + c) < 1000 ^ ts.length * 1000 := by omega
      omega
    omega

theorem carryRun_ne_nil (l : List ℕ) (c : ℕ) (h : l ≠ []) : carryRun l c ≠ [] := by
  cases l with
  | nil => exact absurd rfl h
  | cons t ts => simp [carryRun]

theorem chunk3_val (L : List ℕ) : val (chunk3 L) = val1000 L := by
  induction L using chunk3.induct with
  | case1 => rfl
  | case2 c =>
    show val [c] = val1000 [c]
    simp only [val, val1000]
    omega
  | case3 c b =>
    show val [c + 1000 * b] = val1000 [c, b]
    simp only [val, val1000]
    omega
  | case4 c b a rest ih =>
    show val ((c + 1000 * (b + 1000 * a)) :: chunk3 rest) = _
    simp only [val, val1000, ih, BASE]
    ring

theorem chunk3_lt (L : List ℕ) (h : ∀ x ∈ L, x < 1000) : ∀ y ∈ chunk3 L, y < BASE := by
  induction L using chunk3.induct with
  | case1 => simp [chunk3]
  | case2 c =>
    intro y hy
    have hc := h c (by simp)
    have hy' : y ∈ [c] := hy
    simp at hy'
    rw [hy']
    have : (1000:ℕ) < BASE := by norm_num [BASE]
    omega
  | case3 c b =>
    intro y hy
    have h1 := h c (by simp)
    have h2 := h b (by simp)
    have hy' : y ∈ [c + 1000 * b] := hy
    simp at hy'
    rw [hy']
    simp only [BASE]
    omega
  | case4 c b a rest ih =>
    intro y hy
    have hy' : y ∈ (c + 1000 * (b + 1000 * a)) :: chunk3 rest := hy
    rw [List.mem_cons] at hy'
    cases hy' with
    | inl h1 =>
      have h2 := h c (by simp)
      have h3 := h b (by simp)
      have h4 := h a (by simp)
      rw [h1]
      norm_num [BASE]
      omega
    | inr h2 => exact ih (fun x hx => h x (by simp [hx])) y h2

theorem chunk3_ne_nil (L : List ℕ) (h : L ≠ []) : chunk3 L ≠ [] := by
  match L with
  | [] => exact absurd rfl h
  | [c] => simp [chunk3]
  | [c, b] => simp [chunk3]
  | c :: b :: a :: rest => simp [chunk3]

theorem pow2whileF_ge (f : ℕ) : ∀ t p, t ≤ 2 ^ f * p → t ≤ pow2whileF f t p := by
  induction f with
  | zero =>
    intro t p h
    simpa [pow2whileF] using h
  | succ f ih =>
    intro t p h
    show t ≤ (if p < t then pow2whileF f t (2 * p) else p)
    by_cases hc : p < t
    · rw [if_pos hc]
      refine ih t (2 * p) ?_
      rw [pow_succ] at h
      have he : 2 ^ f * 2 * p = 2 ^ f * (2 * p) := by ring
      omega
    · rw [if_neg hc]
      omega

theorem pow2whileF_pos (f : ℕ) : ∀ t p, 0 < p → 0 < pow2whileF f t p := by
  induction f with
  | zero => intro t p h; simpa [pow2whileF] using h
  | succ f ih =>
    intro t p h
    show 0 < (if p < t then pow2whileF f t (2 * p) else p)
    by_cases hc : p < t
    · rw [if_pos hc]; exact ih t (2 * p) (by omega)
    · rw [if_neg hc]; exact h

theorem fastCore_val (n : ℕ) (fa fb : List ℕ) (hlen : (convL fa fb).length ≤ n)
    (hval : val1000 (convL fa fb) < 1000 ^ n) :
    val (fastCore n fa fb) = val1000 fa * val1000 fb := by
  unfold fastCore
  have htlen : (padTo n (convL fa fb)).length = n := padTo_length n _ hlen
  have htval : val1000 (padTo n (convL fa fb)) = val1000 (convL fa fb) := padTo_val1000 n _
  have hclen : (carryRun (padTo n (convL fa fb)) 0).length = n := by
    rw [carryRun_length _ 0 (by rw [htval, htlen]; omega)]
    exact htlen
  rw [List.take_of_length_le (by omega)]
  rw [chunk3_val, carryRun_val1000, htval, convL_val1000]
  omega

theorem fastCore_lt (n : ℕ) (fa fb : List ℕ) : ∀ y ∈ fastCore n fa fb, y < BASE := by
  unfold fastCore
  exact chunk3_lt _ (fun x hx => carryRun_lt _ 0 x (List.mem_of_mem_take hx))

theorem fastCore_ne_nil (n : ℕ) (fa fb : List ℕ) (hn : 0 < n) : fastCore n fa fb ≠ [] := by
  unfold fastCore
  apply chunk3_ne_nil
  have h1 : (padTo n (convL fa fb)).length = max n (convL fa fb).length := by
    unfold padTo
    simp
    omega
  have h2 : padTo n (convL fa fb) ≠ [] := by
    intro hc
    have := congrArg List.length hc
    rw [h1] at this
    simp at this
    omega
  have h3 := carryRun_ne_nil (padTo n (convL fa fb)) 0 h2
  obtain ⟨z, zs, hz⟩ : ∃ z zs, carryRun (padTo n (convL fa fb)) 0 = z :: zs := by
    cases hc : carryRun (padTo n (convL fa fb)) 0 with
    | nil => exact absurd hc h3
    | cons z zs => exact ⟨z, zs, rfl⟩
  rw [hz]
  obtain ⟨k, rfl⟩ : ∃ k, n = k + 1 := ⟨n - 1, by omega⟩
  simp

theorem BASE_pow_eq (k : ℕ) : BASE ^ k = 1000 ^ (3 * k) := by
  have : BASE = 1000 ^ 3 := by norm_num [BASE]
  rw [this, ← pow_mul]

theorem fastAux_val (x y : List ℕ) (hx : ∀ d ∈ x, d < BASE) (hy : ∀ d ∈ y, d < BASE) :
    val (fastAux x y) = val x * val y := by
  unfold fastAux
  rw [val_normalize]
  set m := max (prepare1000 x).length (prepare1000 y).length with hm
  set n := 2 * pow2whileF m m 1 with hn
  have hP : m ≤ pow2whileF m m 1 := pow2whileF_ge m m 1 (by
    have := Nat.lt_two_pow m
    omega)
  have hmx : (prepare1000 x).length = 3 * x.length := length_prepare1000 x
  have hmy : (prepare1000 y).length = 3 * y.length := length_prepare1000 y
  have hsum : (prepare1000 x).length + (prepare1000 y).length ≤ n := by
    have h1 : (prepare1000 x).length ≤ m := le_max_left _ _
    have h2 : (prepare1000 y).length ≤ m := le_max_right _ _
    omega
  have hlen : (convL (prepare1000 x) (prepare1000 y)).length ≤ n :=
    le_trans (convL_length_le _ _) hsum
  have hval : val1000 (convL (prepare1000 x) (prepare1000 y)) < 1000 ^ n := by
    rw [convL_val1000, val1000_prepare1000, val1000_prepare1000]
    have h1 : val x < BASE ^ x.length := val_lt_pow x hx
    have h2 : val y < BASE ^ y.length := val_lt_pow y hy
    have h3 : val x * val y < BASE ^ x.length * BASE ^ y.length := by
      have hx0 : val x ≤ BASE ^ x.length - 1 := by omega
      have hpos : 0 < BASE ^ y.length := Nat.pos_pow_of_pos _ (by norm_num [BASE])
      calc val x * val y < val x * BASE ^ y.length + BASE ^ y.length := by nlinarith
        _ = (val x + 1) * BASE ^ y.length := by ring
        _ ≤ BASE ^ x.length * BASE ^ y.length := by
            exact Nat.mul_le_mul_right _ (by omega)
    rw [BASE_pow_eq, BASE_pow_eq] at h3
    have h4 : (1000:ℕ) ^ (3 * x.length) * 1000 ^ (3 * y.length)
        = 1000 ^ (3 * x.length + 3 * y.length) := by rw [← pow_add]
    rw [h4] at h3
    have h5 : (1000:ℕ) ^ (3 * x.length + 3 * y.length) ≤ 1000 ^ n := by
      apply Nat.pow_le_pow_right (by norm_num)
      omega
    omega
  rw [fastCore_val n _ _ hlen hval, val1000_prepare1000, val1000_prepare1000]

theorem valid_fastAux (x y : List ℕ) : Valid (fastAux x y) := by
  unfold fastAux
  set m := max (prepare1000 x).length (prepare1000 y).length with hm
  have hpos : 0 < 2 * pow2whileF m m 1 := by
    have := pow2whileF_pos m m 1 (by norm_num)
    omega
  exact valid_normalize _ (fastCore_ne_nil _ _ _ hpos) (fastCore_lt _ _ _)

end BigU

namespace BigU

theorem multAux_val (a b : List ℕ) (ha : ∀ d ∈ a, d < BASE) (hb : ∀ d ∈ b, d < BASE) :
    val (multAux a b) = val a * val b := by
  unfold multAux
  by_cases h : multSelect a.length b.length
  · rw [if_pos h]; exact fastAux_val a b ha hb
  · rw [if_neg h]; exact slowAux_val a b

theorem valid_multAux (a b : List ℕ) (hne : a ≠ []) (ha : ∀ d ∈ a, d < BASE)
    (hb : ∀ d ∈ b, d < BASE) : Valid (multAux a b) := by
  unfold multAux
  by_cases h : multSelect a.length b.length
  · rw [if_pos h]; exact valid_fastAux a b
  · rw [if_neg h]; exact valid_slowAux a b hne ha hb

theorem mulNat_val (a : List ℕ) (num : ℕ) (ha : ∀ d ∈ a, d < BASE) :
    val (mulNat a num) = val a * num := by
  unfold mulNat
  by_cases h : num < BASE
  · rw [if_pos h, val_normalize, mulCarry_val]
    omega
  · rw [if_neg h, multAux_val a _ ha (valid_ofNat num).2.1, val_ofNat]

theorem valid_mulNat (a : List ℕ) (num : ℕ) (hne : a ≠ []) (ha : ∀ d ∈ a, d < BASE) :
    Valid (mulNat a num) := by
  unfold mulNat
  by_cases h : num < BASE
  · rw [if_pos h]
    exact valid_normalize _ (mulCarry_ne_nil a num 0 hne)
      (mulCarry_lt a num 0 h (by norm_num [BASE]) ha)
  · rw [if_neg h]
    exact valid_multAux a _ hne ha (valid_ofNat num).2.1

theorem slow_mult_val (a b : List ℕ) (ha : ∀ d ∈ a, d < BASE) (hb : ∀ d ∈ b, d < BASE) :
    val (slow_mult a b) = val a * val b := by
  unfold slow_mult
  by_cases h : b.length = 1
  · obtain ⟨x, rfl⟩ : ∃ x, b = [x] := by
      cases b with
      | nil => simp at h
      | cons y ys =>
        cases ys with
        | nil => exact ⟨y, rfl⟩
        | cons z zs => simp at h
    rw [if_pos h]
    show val (mulNat a x) = val a * val [x]
    rw [mulNat_val a x ha]
    simp [val]
  · rw [if_neg h]
    exact slowAux_val a b

theorem fast_mult_val (a b : List ℕ) (ha : ∀ d ∈ a, d < BASE) (hb : ∀ d ∈ b, d < BASE) :
    val (fast_mult a b) = val a * val b := by
  unfold fast_mult
  by_cases h : b.length = 1
  · obtain ⟨x, rfl⟩ : ∃ x, b = [x] := by
      cases b with
      | nil => simp at h
      | cons y ys =>
        cases ys with
        | nil => exact ⟨y, rfl⟩
        | cons z zs => simp at h
    rw [if_pos h]
    show val (mulNat a x) = val a * val [x]
    rw [mulNat_val a x ha]
    simp [val]
  · rw [if_neg h]
    exact fastAux_val a b ha hb

theorem multU_val (a b : List ℕ) (ha : ∀ d ∈ a, d < BASE) (hb : ∀ d ∈ b, d < BASE) :
    val (multU a b) = val a * val b := by
  unfold multU
  by_cases h : multSelect a.length b.length
  · rw [if_pos h]; exact fast_mult_val a b ha hb
  · rw [if_neg h]; exact slow_mult_val a b ha hb

theorem valid_slow_mult (a b : List ℕ) (hne : a ≠ []) (ha : ∀ d ∈ a, d < BASE)
    (hb : ∀ d ∈ b, d < BASE) : Valid (slow_mult a b) := by
  unfold slow_mult
  by_cases h : b.length = 1
  · rw [if_pos h]; exact valid_mulNat a _ hne ha
  · rw [if_neg h]; exact valid_slowAux a b hne ha hb

theorem valid_fast_mult (a b : List ℕ) (hne : a ≠ []) (ha : ∀ d ∈ a, d < BASE) :
    Valid (fast_mult a b) := by
  unfold fast_mult
  by_cases h : b.length = 1
  · rw [if_pos h]; exact valid_mulNat a _ hne ha
  · rw [if_neg h]; exact valid_fastAux a b

theorem valid_multU (a b : List ℕ) (hne : a ≠ []) (ha : ∀ d ∈ a, d < BASE)
    (hb : ∀ d ∈ b, d < BASE) : Valid (multU a b) := by
  unfold multU
  by_cases h : multSelect a.length b.length
  · rw [if_pos h]; exact valid_fast_mult a b hne ha
  · rw [if_neg h]; exact valid_slow_mult a b hne ha hb

end BigU

namespace BigU

/-- The Horner loop of `operator%(const UInt&, int64_t)` (lines 376-379),
scanning the digits from the most significant one: the first argument is the
big-endian digit list. -/
def modLoop : List ℕ → ℕ → ℕ → ℕ
  | [], _, r => r
  | d :: rest, m, r => modLoop rest m ((r * BASE + d) % m)

/-- `operator%(const UInt& a, const int64_t num)` (lines 374-381): remainder
of `a` by a native divisor (the C++ asserts `num > 0`); returns a native
integer. -/
def modNat (a : List ℕ) (num : ℕ) : ℕ := modLoop a.reverse num 0

/-- The in-place Horner division loop of `UInt::operator/=(int64_t)` (lines
363-369), scanning from the most significant digit: returns the big-endian
quotient digits and the final remainder. -/
def divLoopS : List ℕ → ℕ → ℕ → (List ℕ × ℕ)
  | [], _, r => ([], r)
  | d :: rest, m, r =>
    let p := divLoopS rest m ((r * BASE + d) % m)
    ((r * BASE + d) / m :: p.1, p.2)

/-- The short-divisor path of `UInt::operator/=(int64_t)` (lines 358-371)
for `num < BASE`: divide digit-wise from the top and normalize. -/
def divNatSmall (a : List ℕ) (num : ℕ) : List ℕ :=
  normalize ((divLoopS a.reverse num 0).1.reverse)

/-- The quotient-correction loop of `UInt::div_mod` (lines 402-405):
`while (r < temp) { r += b; --d; }`, with fuel (first numeric argument).
Under the division invariants the loop runs at most `d` times, so the fuel
`d + 1` used by `divStep` never runs out (proved in `fixLoop_spec`). -/
def fixLoop (temp b : List ℕ) : ℕ → List ℕ → ℕ → (List ℕ × ℕ)
  | 0, r, d => (r, d)
  | f + 1, r, d =>
    if compareL r temp < 0 then fixLoop temp b f (addUInt r b) (d - 1) else (r, d)

/-- One iteration of the long-division loop of `UInt::div_mod` (lines
395-408) at digit `ai = a.digits[i]`: shift the running remainder
(`r *= BASE; r += a.digits[i]`), estimate the quotient digit from the top
two digits of `r` and the top digit of `b` (`s1`, `s2`, `d`), correct it
with the `r < temp` loop, subtract, and emit the digit.  `bsz` is
`b.digits.size()`; the C++ index `b_size - 1` (an `int64_t`) is rendered
with truncated subtraction, which agrees with it whenever `bsz ≥ 1`, i.e.
whenever `b` is a non-empty digit vector. -/
def divStep (b' : List ℕ) (bsz : ℕ) (r : List ℕ) (ai : ℕ) : ℕ × List ℕ :=
  let r1 := addNat (mulNat r BASE) ai
  let s1 := if r1.length ≤ bsz then 0 else r1.getD bsz 0
  let s2 := if r1.length ≤ bsz - 1 then 0 else r1.getD (bsz - 1) 0
  let d0 := (BASE * s1 + s2) / b'.getLastD 0
  let temp := mulNat b' d0
  let p := fixLoop temp b' (d0 + 1) r1 d0
  (p.2, subUInt p.1 temp)

/-- The digit loop of `UInt::div_mod` (lines 395-408), processing the
big-endian digits of the scaled dividend and threading the remainder
(initially the default-constructed `UInt()`, i.e. `[0]`); returns the
big-endian quotient digits and the final remainder. -/
def divLoop (b' : List ℕ) (bsz : ℕ) : List ℕ → List ℕ → (List ℕ × List ℕ)
  | [], r => ([], r)
  | ai :: rest, r =>
    let st := divStep b' bsz r ai
    let p := divLoop b' bsz rest st.2
    (st.1 :: p.1, p.2)

/-- The multi-digit-divisor path of `UInt::div_mod` (lines 388-409):
normalize by `norm = BASE / (b.back() + 1)`, long-divide, then
`q.normalize()` and `r /= norm`.  For a normalized divisor `b.back() ≥ 1`,
so `norm ≤ BASE / 2 < BASE` and `r /= norm` takes the short-divisor Horner
path, which is called directly. -/
def divModLong (a b : List ℕ) : List ℕ × List ℕ :=
  let nrm := BASE / (b.getLastD 0 + 1)
  let a' := mulNat a nrm
  let b' := mulNat b nrm
  let p := divLoop b' b'.length a'.reverse (ofNat 0)
  (normalize p.1.reverse, divNatSmall p.2 nrm)

/-- `UInt::operator/=(int64_t num)` (lines 358-371).  For `num >= BASE` the
C++ escalates to `*this /= UInt(num)`, i.e. `div_mod(UInt(num)).first`;
since `UInt(num)` then has at least two digits, the single-digit branch of
`div_mod` does not fire and the long division runs. -/
def divNat (a : List ℕ) (num : ℕ) : List ℕ :=
  if num < BASE then divNatSmall a num else (divModLong a (ofNat num)).1

/-- `UInt::div_mod` (lines 384-410): for a single-digit divisor, quotient by
`operator/(UInt, int64_t)` and remainder by `operator%(UInt, int64_t)`
(wrapped back into a `UInt` by the `int64_t` constructor); otherwise the
normalized long division. -/
def div_mod (a b : List ℕ) : List ℕ × List ℕ :=
  if b.length = 1 then (divNat a (b.headD 0), ofNat (modNat a (b.headD 0)))
  else divModLong a b

/-- `operator/(const UInt&, const UInt&)` (lines 464-466). -/
def divU (a b : List ℕ) : List ℕ := (div_mod a b).1

/-- `operator%(const UInt&, const UInt&)` (lines 469-471). -/
def modU (a b : List ℕ) : List ℕ := (div_mod a b).2

theorem valBE_reverse (l : List ℕ) : valBE l.reverse = val l := by
  have h := val_reverse l.reverse
  rw [List.reverse_reverse] at h
  exact h.symm

theorem div_mod_unique (x q r m : ℕ) (hm : 0 < m) (h : q * m + r = x) (hr : r < m) :
    x / m = q ∧ x % m = r := by
  subst h
  constructor
  · rw [Nat.add_comm, mul_comm, Nat.add_mul_div_left _ _ hm, Nat.div_eq_of_lt hr]
    omega
  · rw [Nat.add_comm, mul_comm, Nat.add_mul_mod_self_left]
    exact Nat.mod_eq_of_lt hr

theorem modLoop_val (ds : List ℕ) : ∀ m r, 0 < m → r < m →
    modLoop ds m r = (r * BASE ^ ds.length + valBE ds) % m := by
  induction ds with
  | nil =>
    intro m r hm hr
    show r = (r * 1 + 0) % m
    rw [mul_one, Nat.add_zero, Nat.mod_eq_of_lt hr]
  | cons d rest ih =>
    intro m r hm hr
    show modLoop rest m ((r * BASE + d) % m) = _
    rw [ih m _ hm (Nat.mod_lt _ hm)]
    have hcong : ((r * BASE + d) % m) * BASE ^ rest.length + valBE rest
        ≡ (r * BASE + d) * BASE ^ rest.length + valBE rest [MOD m] :=
      Nat.ModEq.add_right _ (Nat.ModEq.mul_right _ (Nat.mod_modEq _ _))
    rw [hcong]
    congr 1
    show (r * BASE + d) * BASE ^ rest.length + valBE rest
      = r * BASE ^ (rest.length + 1) + (d * BASE ^ rest.length + valBE rest)
    ring

theorem modNat_val (a : List ℕ) (num : ℕ) (hm : 0 < num) : modNat a num = val a % num := by
  unfold modNat
  rw [modLoop_val _ num 0 hm hm]
  simp only [Nat.zero_mul, Nat.zero_add]
  rw [valBE_reverse]

theorem divLoopS_spec (ds : List ℕ) : ∀ m r, 0 < m → r < m → (∀ d ∈ ds, d < BASE) →
    valBE (divLoopS ds m r).1 * m + (divLoopS ds m r).2 = r * BASE ^ ds.length + valBE ds ∧
    (divLoopS ds m r).2 < m ∧ (divLoopS ds m r).1.length = ds.length ∧
    (∀ q ∈ (divLoopS ds m r).1, q < BASE) := by
  induction ds with
  | nil =>
    intro m r hm hr _
    refine ⟨?_, hr, rfl, by simp [divLoopS]⟩
    show valBE [] * m + r = r * 1 + valBE []
    simp [valBE]
  | cons d rest ih =>
    intro m r hm hr hds
    have hd : d < BASE := hds d (by simp)
    have hrec := ih m ((r * BASE + d) % m) hm (Nat.mod_lt _ hm)
      (fun x hx => hds x (by simp [hx]))
    obtain ⟨h1, h2, h3, h4⟩ := hrec
    have hq : (r * BASE + d) / m < BASE := by
      rw [Nat.div_lt_iff_lt_mul hm]
      calc r * BASE + d < r * BASE + BASE := by omega
        _ = (r + 1) * BASE := by ring
        _ ≤ m * BASE := Nat.mul_le_mul_right _ (by omega)
        _ = BASE * m := by ring
    refine ⟨?_, h2, by simp [divLoopS, h3], ?_⟩
    · show valBE ((r * BASE + d) / m :: (divLoopS rest m ((r * BASE + d) % m)).1) * m
          + (divLoopS rest m ((r * BASE + d) % m)).2 = _
      show ((r * BASE + d) / m * BASE ^ (divLoopS rest m ((r * BASE + d) % m)).1.length
          + valBE (divLoopS rest m ((r * BASE + d) % m)).1) * m + _ = _
      rw [h3]
      have hdm := Nat.div_add_mod (r * BASE + d) m
      calc ((r * BASE + d) / m * BASE ^ rest.length
            + valBE (divLoopS rest m ((r * BASE + d) % m)).1) * m
            + (divLoopS rest m ((r * BASE + d) % m)).2
          = (r * BASE + d) / m * m * BASE ^ rest.length
            + (valBE (divLoopS rest m ((r * BASE + d) % m)).1 * m
              + (divLoopS rest m ((r * BASE + d) % m)).2) := by ring
        _ = (r * BASE + d) / m * m * BASE ^ rest.length
            + (((r * BASE + d) % m) * BASE ^ rest.length + valBE rest) := by rw [h1]
        _ = ((r * BASE + d) / m * m + (r * BASE + d) % m) * BASE ^ rest.length
            + valBE rest := by ring
        _ = (r * BASE + d) * BASE ^ rest.length + valBE rest := by
            rw [mul_comm ((r * BASE + d) / m) m, hdm]
        _ = r * BASE ^ (rest.length + 1) + (d * BASE ^ rest.length + valBE rest) := by ring
        _ = r * BASE ^ (d :: rest).length + valBE (d :: rest) := by
            simp [valBE]
    · intro q hq'
      have : q ∈ (r * BASE + d) / m :: (divLoopS rest m ((r * BASE + d) % m)).1 := hq'
      rw [List.mem_cons] at this
      cases this with
      | inl hh => rw [hh]; exact hq
      | inr hh => exact h4 q hh

theorem divNatSmall_val (a : List ℕ) (num : ℕ) (hm : 0 < num) (ha : ∀ d ∈ a, d < BASE) :
    val (divNatSmall a num) = val a / num := by
  unfold divNatSmall
  rw [val_normalize, val_reverse]
  obtain ⟨h1, h2, _, _⟩ := divLoopS_spec a.reverse num 0 hm hm (by simpa using ha)
  simp only [Nat.zero_mul, Nat.zero_add] at h1
  rw [valBE_reverse] at h1
  exact (div_mod_unique (val a) _ _ num hm h1 h2).1.symm

theorem valid_divNatSmall (a : List ℕ) (num : ℕ) (hm : 0 < num) (hne : a ≠ [])
    (ha : ∀ d ∈ a, d < BASE) : Valid (divNatSmall a num) := by
  unfold divNatSmall
  obtain ⟨_, _, h3, h4⟩ := divLoopS_spec a.reverse num 0 hm hm (by simpa using ha)
  refine valid_normalize _ ?_ ?_
  · intro hc
    have := congrArg List.length hc
    simp only [List.length_reverse, h3] at this
    simp at this
    exact hne (List.length_eq_zero.mp (by simp [this]))
  · intro d hd
    rw [List.mem_reverse] at hd
    exact h4 d hd

end BigU

namespace BigU

theorem getD_val (l : List ℕ) : ∀ j, (∀ d ∈ l, d < BASE) →
    l.getD j 0 = val l / BASE ^ j % BASE := by
  induction l with
  | nil =>
    intro j _
    simp [val, Nat.zero_div]
  | cons d rest ih =>
    intro j h
    have hd : d < BASE := h d (by simp)
    cases j with
    | zero =>
      simp only [List.getD_cons_zero, pow_zero, Nat.div_one, val]
      rw [Nat.add_mul_mod_self_left, Nat.mod_eq_of_lt hd]
    | succ j' =>
      rw [List.getD_cons_succ, ih j' (fun x hx => h x (by simp [hx]))]
      have h1 : val (d :: rest) / BASE ^ (j' + 1) = val rest / BASE ^ j' := by
        show (d + BASE * val rest) / BASE ^ (j' + 1) = _
        rw [pow_succ, mul_comm (BASE ^ j') BASE, ← Nat.div_div_eq_div_mul]
        congr 1
        rw [Nat.add_mul_div_left _ _ (by norm_num [BASE] : 0 < BASE)]
        rw [Nat.div_eq_of_lt hd]
        omega
      rw [h1]

theorem valid_getLastD (l : List ℕ) (h : Valid l) (h0 : 0 < val l) :
    0 < l.getLastD 0 ∧ l.getLastD 0 * BASE ^ (l.length - 1) ≤ val l ∧
    l.getLastD 0 < BASE := by
  have hne0 : l ≠ [0] := by
    intro hc
    rw [hc] at h0
    simp [val] at h0
  obtain ⟨dd, hdd, hdd1⟩ := valid_msd l h hne0
  have heq : l.getLastD 0 = dd := by
    rw [List.getLastD_eq_getLast?, hdd]
    rfl
  rw [heq]
  exact ⟨hdd1, getLast_le_val l dd hdd, h.2.1 dd (List.mem_of_getLast?_eq_some hdd)⟩

theorem estimate_ge (R V top k s1 s2 : ℕ) (htop : 0 < top)
    (hV : top * BASE ^ k ≤ V) (hR : R < BASE ^ (k + 2))
    (hs1 : s1 = R / BASE ^ (k + 1) % BASE) (hs2 : s2 = R / BASE ^ k % BASE) :
    R / V ≤ (BASE * s1 + s2) / top := by
  have hBpos : 0 < BASE := by norm_num [BASE]
  have hpk : 0 < BASE ^ k := Nat.pos_pow_of_pos _ hBpos
  have hs1' : R / BASE ^ (k + 1) = s1 := by
    rw [hs1]
    have : R / BASE ^ (k + 1) < BASE := by
      rw [Nat.div_lt_iff_lt_mul (Nat.pos_pow_of_pos _ hBpos)]
      calc R < BASE ^ (k + 2) := hR
        _ = BASE * BASE ^ (k + 1) := by ring
    rw [Nat.mod_eq_of_lt this]
  have hdiv2 : R / BASE ^ k / BASE = R / BASE ^ (k + 1) := by
    rw [Nat.div_div_eq_div_mul, ← pow_succ]
  have hdecomp : R / BASE ^ k = BASE * s1 + s2 := by
    have hdm := Nat.div_add_mod (R / BASE ^ k) BASE
    rw [hdiv2, hs1'] at hdm
    rw [hs2]
    omega
  have hRle : R < (BASE * s1 + s2 + 1) * BASE ^ k := by
    have hdm := Nat.div_add_mod R (BASE ^ k)
    have hmod : R % BASE ^ k < BASE ^ k := Nat.mod_lt _ hpk
    rw [hdecomp] at hdm
    calc R = BASE ^ k * (BASE * s1 + s2) + R % BASE ^ k := hdm.symm
      _ < BASE ^ k * (BASE * s1 + s2) + BASE ^ k := by omega
      _ = (BASE * s1 + s2 + 1) * BASE ^ k := by ring
  set q := R / V with hq
  have h1 : q * V ≤ R := Nat.div_mul_le_self R V
  have h2 : q * (top * BASE ^ k) ≤ R := le_trans (Nat.mul_le_mul_left q hV) h1
  have h3 : q * top * BASE ^ k < (BASE * s1 + s2 + 1) * BASE ^ k := by
    calc q * top * BASE ^ k = q * (top * BASE ^ k) := by ring
      _ ≤ R := h2
      _ < _ := hRle
  have h4 : q * top < BASE * s1 + s2 + 1 := Nat.lt_of_mul_lt_mul_right h3
  have h5 : q * top ≤ BASE * s1 + s2 := by omega
  exact (Nat.le_div_iff_mul_le htop).mpr h5

theorem fixLoop_spec (temp b : List ℕ) (htv : Valid temp) (hbv : Valid b) :
    ∀ f r d, Valid r → val temp ≤ val r + f * val b →
    ∃ k, k ≤ f ∧ Valid (fixLoop temp b f r d).1 ∧
      val (fixLoop temp b f r d).1 = val r + k * val b ∧
      (fixLoop temp b f r d).2 = d - k ∧
      val temp ≤ val (fixLoop temp b f r d).1 ∧
      (k = 0 ∨ val r + (k - 1) * val b < val temp) := by
  intro f
  induction f with
  | zero =>
    intro r d hr hle
    refine ⟨0, le_rfl, hr, by simp [fixLoop], by simp [fixLoop], ?_, Or.inl rfl⟩
    simpa [fixLoop] using hle
  | succ f ih =>
    intro r d hr hle
    have hun : fixLoop temp b (f + 1) r d
        = if compareL r temp < 0 then fixLoop temp b f (addUInt r b) (d - 1) else (r, d) := rfl
    rw [hun]
    by_cases hc : compareL r temp < 0
    · rw [if_pos hc]
      have hlt : val r < val temp := (compareL_neg_iff r temp hr htv).mp hc
      have hradd : Valid (addUInt r b) := valid_addUInt r b hr.1 hr.2.1
      have hvadd : val (addUInt r b) = val r + val b := addUInt_val r b
      have hle' : val temp ≤ val (addUInt r b) + f * val b := by
        rw [hvadd]
        have : (f + 1) * val b = val b + f * val b := by ring
        omega
      obtain ⟨k', hk'f, hkv, hkval, hkd, hktemp, hkmin⟩ := ih (addUInt r b) (d - 1) hradd hle'
      refine ⟨k' + 1, by omega, hkv, ?_, ?_, hktemp, ?_⟩
      · rw [hkval, hvadd]
        ring
      · rw [hkd]
        omega
      · right
        have hred : k' + 1 - 1 = k' := rfl
        rw [hred]
        cases hkmin with
        | inl h0 =>
          subst h0
          simpa using hlt
        | inr hmin =>
          rw [hvadd] at hmin
          rcases Nat.eq_zero_or_pos k' with h0 | h1
          · subst h0
            simpa using hlt
          · have he : val r + val b + (k' - 1) * val b = val r + k' * val b := by
              have hk : (k' - 1) + 1 = k' := by omega
              calc val r + val b + (k' - 1) * val b
                  = val r + ((k' - 1) + 1) * val b := by ring
                _ = val r + k' * val b := by rw [hk]
            omega
    · rw [if_neg hc]
      have hge : val temp ≤ val r := by
        have hiff := compareL_neg_iff r temp hr htv
        by_contra hcc
        push_neg at hcc
        exact hc (hiff.mpr hcc)
      exact ⟨0, by omega, hr, by simp, by simp, hge, Or.inl rfl⟩

end BigU

namespace BigU

theorem divstep_arith (R vb d0 k x : ℕ) (hvb : 0 < vb) (hq : R / vb ≤ d0)
    (hk : k ≤ d0) (hx : x + d0 * vb = R + k * vb)
    (hge : d0 * vb ≤ R + k * vb)
    (hmin : k = 0 ∨ R + (k - 1) * vb < d0 * vb) :
    d0 - k = R / vb ∧ x = R % vb := by
  have he1 : (d0 - k) * vb + k * vb = d0 * vb := by
    rw [← Nat.add_mul]
    congr 1
    omega
  have hA : (d0 - k) * vb ≤ R := by omega
  have hB : R < (d0 - k + 1) * vb := by
    rcases Nat.eq_zero_or_pos k with h0 | h1
    · subst h0
      have hlt : R < (R / vb + 1) * vb := by
        have hdm := Nat.div_add_mod R vb
        have hmod : R % vb < vb := Nat.mod_lt _ hvb
        calc R = vb * (R / vb) + R % vb := hdm.symm
          _ < vb * (R / vb) + vb := by omega
          _ = (R / vb + 1) * vb := by ring
      have hle : (R / vb + 1) * vb ≤ (d0 + 1) * vb := Nat.mul_le_mul_right _ (by omega)
      simp only [Nat.sub_zero]
      omega
    · rcases hmin with h0 | hminr
      · omega
      · have he2 : (d0 - k + 1) * vb + (k - 1) * vb = d0 * vb := by
          rw [← Nat.add_mul]
          congr 1
          omega
        omega
  have hxd : x + (d0 - k) * vb = R := by omega
  have he3 : (d0 - k + 1) * vb = (d0 - k) * vb + vb := by ring
  have hxlt : x < vb := by omega
  have := div_mod_unique R (d0 - k) x vb hvb (by omega) hxlt
  exact ⟨this.1.symm, this.2.symm⟩

theorem divStep_spec (b' : List ℕ) (hb : Valid b') (hbpos : 0 < val b') (r : List ℕ)
    (hr : Valid r) (hlt : val r < val b') (ai : ℕ) (hai : ai < BASE) :
    (divStep b' b'.length r ai).1 = (val r * BASE + ai) / val b' ∧
    (divStep b' b'.length r ai).1 < BASE ∧
    Valid (divStep b' b'.length r ai).2 ∧
    val (divStep b' b'.length r ai).2 = (val r * BASE + ai) % val b' := by
  have hBpos : (0:ℕ) < BASE := by norm_num [BASE]
  set r1 := addNat (mulNat r BASE) ai with hr1def
  set s1 := if r1.length ≤ b'.length then 0 else r1.getD b'.length 0 with hs1def
  set s2 := if r1.length ≤ b'.length - 1 then 0 else r1.getD (b'.length - 1) 0 with hs2def
  set d0 := (BASE * s1 + s2) / b'.getLastD 0 with hd0def
  set temp := mulNat b' d0 with htempdef
  have hstep : divStep b' b'.length r ai
      = ((fixLoop temp b' (d0 + 1) r1 d0).2,
         subUInt (fixLoop temp b' (d0 + 1) r1 d0).1 temp) := rfl
  have hmul_valid : Valid (mulNat r BASE) := valid_mulNat r BASE hr.1 hr.2.1
  have hr1valid : Valid r1 := valid_addNat _ ai hmul_valid.1 hmul_valid.2.1
  have hr1v : val r1 = val r * BASE + ai := by
    rw [hr1def, addNat_val, mulNat_val r BASE hr.2.1]
  have hbsz1 : 1 ≤ b'.length := by
    cases hbb : b' with
    | nil => exact absurd hbb hb.1
    | cons z zs => simp
  obtain ⟨htop_pos, htop_le, htop_lt⟩ := valid_getLastD b' hb hbpos
  have hvb_lt : val b' < BASE ^ b'.length := val_lt_pow b' hb.2.1
  have hRlt : val r1 < val b' * BASE := by
    rw [hr1v]
    have h1 : val r * BASE ≤ (val b' - 1) * BASE := Nat.mul_le_mul_right _ (by omega)
    have h2 : (val b' - 1) * BASE + BASE = val b' * BASE := by
      have h3 : (val b' - 1) + 1 = val b' := by omega
      calc (val b' - 1) * BASE + BASE = ((val b' - 1) + 1) * BASE := by ring
        _ = val b' * BASE := by rw [h3]
    omega
  have hRpow : val r1 < BASE ^ (b'.length + 1) := by
    calc val r1 < val b' * BASE := hRlt
      _ ≤ BASE ^ b'.length * BASE := Nat.mul_le_mul_right _ (by omega)
      _ = BASE ^ (b'.length + 1) := by rw [pow_succ]
  have hs1val : s1 = val r1 / BASE ^ b'.length % BASE := by
    rw [hs1def]
    by_cases hcase : r1.length ≤ b'.length
    · rw [if_pos hcase]
      have hsm : val r1 < BASE ^ b'.length :=
        lt_of_lt_of_le (val_lt_pow r1 hr1valid.2.1)
          (Nat.pow_le_pow_right (by omega) hcase)
      rw [Nat.div_eq_of_lt hsm]
      simp
    · rw [if_neg hcase]
      exact getD_val r1 b'.length hr1valid.2.1
  have hs2val : s2 = val r1 / BASE ^ (b'.length - 1) % BASE := by
    rw [hs2def]
    by_cases hcase : r1.length ≤ b'.length - 1
    · rw [if_pos hcase]
      have hsm : val r1 < BASE ^ (b'.length - 1) :=
        lt_of_lt_of_le (val_lt_pow r1 hr1valid.2.1)
          (Nat.pow_le_pow_right (by omega) hcase)
      rw [Nat.div_eq_of_lt hsm]
      simp
    · rw [if_neg hcase]
      exact getD_val r1 (b'.length - 1) hr1valid.2.1
  have hqle : val r1 / val b' ≤ d0 := by
    rw [hd0def]
    refine estimate_ge (val r1) (val b') (b'.getLastD 0) (b'.length - 1) s1 s2 htop_pos
      htop_le ?_ ?_ ?_
    · have he : b'.length - 1 + 2 = b'.length + 1 := by omega
      rw [he]
      exact hRpow
    · have he : b'.length - 1 + 1 = b'.length := by omega
      rw [he]
      exact hs1val
    · exact hs2val
  have htemp_valid : Valid temp := valid_mulNat b' d0 hb.1 hb.2.1
  have htemp_val : val temp = val b' * d0 := mulNat_val b' d0 hb.2.1
  clear_value r1 s1 s2 d0 temp
  have hfuel : val temp ≤ val r1 + (d0 + 1) * val b' := by
    rw [htemp_val]
    have he : (d0 + 1) * val b' = d0 * val b' + val b' := by ring
    have hc : val b' * d0 = d0 * val b' := by ring
    omega
  obtain ⟨k, hkf, hp1valid, hp1val, hp2val, htemple, hmin⟩ :=
    fixLoop_spec temp b' htemp_valid hb (d0 + 1) r1 d0 hr1valid hfuel
  have hvbpos : 0 < val b' := hbpos
  have hkd0 : k ≤ d0 := by
    rcases hmin with h0 | hminr
    · omega
    · rcases Nat.eq_zero_or_pos k with h0 | h1
      · omega
      · have h2 : (k - 1) * val b' < d0 * val b' := by
          rw [htemp_val] at hminr
          have hc : val b' * d0 = d0 * val b' := by ring
          omega
        have h3 : k - 1 < d0 := Nat.lt_of_mul_lt_mul_right h2
        omega
  have hsub_val : val (subUInt (fixLoop temp b' (d0 + 1) r1 d0).1 temp) + val temp
      = val (fixLoop temp b' (d0 + 1) r1 d0).1 :=
    subUInt_val _ _ hp1valid.2.1 htemp_valid.2.1 htemple
  have hsub_valid : Valid (subUInt (fixLoop temp b' (d0 + 1) r1 d0).1 temp) :=
    valid_subUInt _ _ hp1valid.1 hp1valid.2.1 htemp_valid.2.1
  have hc0 : val b' * d0 = d0 * val b' := by ring
  have harg1 : val (subUInt (fixLoop temp b' (d0 + 1) r1 d0).1 temp) + d0 * val b'
      = val r1 + k * val b' := by
    rw [hp1val, htemp_val] at hsub_val
    omega
  have harg2 : d0 * val b' ≤ val r1 + k * val b' := by
    rw [htemp_val, hp1val] at htemple
    omega
  have harg3 : k = 0 ∨ val r1 + (k - 1) * val b' < d0 * val b' := by
    rcases hmin with h0 | hminr
    · exact Or.inl h0
    · right
      rw [htemp_val] at hminr
      omega
  have harith := divstep_arith (val r1) (val b') d0 k
    (val (subUInt (fixLoop temp b' (d0 + 1) r1 d0).1 temp)) hvbpos hqle hkd0
    harg1 harg2 harg3
  rw [hstep]
  refine ⟨?_, ?_, hsub_valid, ?_⟩
  · show (fixLoop temp b' (d0 + 1) r1 d0).2 = _
    rw [hp2val, ← hr1v]
    exact harith.1
  · show (fixLoop temp b' (d0 + 1) r1 d0).2 < BASE
    rw [hp2val, harith.1]
    rw [Nat.div_lt_iff_lt_mul hvbpos]
    calc val r1 < val b' * BASE := hRlt
      _ = BASE * val b' := by ring
  · show val (subUInt (fixLoop temp b' (d0 + 1) r1 d0).1 temp) = _
    rw [← hr1v]
    exact harith.2

end BigU

namespace BigU

theorem divLoop_spec (b' : List ℕ) (hb : Valid b') (hbpos : 0 < val b') :
    ∀ ds r, (∀ d ∈ ds, d < BASE) → Valid r → val r < val b' →
    valBE (divLoop b' b'.length ds r).1 * val b' + val (divLoop b' b'.length ds r).2
      = val r * BASE ^ ds.length + valBE ds ∧
    val (divLoop b' b'.length ds r).2 < val b' ∧
    Valid (divLoop b' b'.length ds r).2 ∧
    (∀ q ∈ (divLoop b' b'.length ds r).1, q < BASE) ∧
    (divLoop b' b'.length ds r).1.length = ds.length := by
  intro ds
  induction ds with
  | nil =>
    intro r _ hr hlt
    refine ⟨?_, hlt, hr, by simp [divLoop], rfl⟩
    show valBE [] * val b' + val r = val r * BASE ^ (0:ℕ) + valBE []
    simp [valBE]
  | cons ai rest ih =>
    intro r hds hr hlt
    have hai : ai < BASE := hds ai (by simp)
    have hun : divLoop b' b'.length (ai :: rest) r
        = ((divStep b' b'.length r ai).1
            :: (divLoop b' b'.length rest (divStep b' b'.length r ai).2).1,
           (divLoop b' b'.length rest (divStep b' b'.length r ai).2).2) := rfl
    obtain ⟨hst1, hst1lt, hst2v, hst2val⟩ := divStep_spec b' hb hbpos r hr hlt ai hai
    have hst2lt : val (divStep b' b'.length r ai).2 < val b' := by
      rw [hst2val]
      exact Nat.mod_lt _ hbpos
    obtain ⟨hI, hIlt, hIv, hIq, hIlen⟩ :=
      ih (divStep b' b'.length r ai).2 (fun x hx => hds x (by simp [hx])) hst2v hst2lt
    rw [hun]
    refine ⟨?_, hIlt, hIv, ?_, by simp [hIlen]⟩
    · show ((divStep b' b'.length r ai).1
          * BASE ^ (divLoop b' b'.length rest (divStep b' b'.length r ai).2).1.length
          + valBE (divLoop b' b'.length rest (divStep b' b'.length r ai).2).1) * val b'
          + val (divLoop b' b'.length rest (divStep b' b'.length r ai).2).2 = _
      rw [hIlen]
      have hdm := Nat.div_add_mod (val r * BASE + ai) (val b')
      have hE1 : (divStep b' b'.length r ai).1 * val b'
          + val (divStep b' b'.length r ai).2 = val r * BASE + ai := by
        rw [hst1, hst2val]
        calc (val r * BASE + ai) / val b' * val b' + (val r * BASE + ai) % val b'
            = val b' * ((val r * BASE + ai) / val b') + (val r * BASE + ai) % val b' := by
              ring
          _ = val r * BASE + ai := hdm
      calc ((divStep b' b'.length r ai).1 * BASE ^ rest.length
            + valBE (divLoop b' b'.length rest (divStep b' b'.length r ai).2).1) * val b'
            + val (divLoop b' b'.length rest (divStep b' b'.length r ai).2).2
          = (divStep b' b'.length r ai).1 * val b' * BASE ^ rest.length
            + (valBE (divLoop b' b'.length rest (divStep b' b'.length r ai).2).1 * val b'
              + val (divLoop b' b'.length rest (divStep b' b'.length r ai).2).2) := by ring
        _ = (divStep b' b'.length r ai).1 * val b' * BASE ^ rest.length
            + (val (divStep b' b'.length r ai).2 * BASE ^ rest.length + valBE rest) := by
              rw [hI]
        _ = ((divStep b' b'.length r ai).1 * val b'
            + val (divStep b' b'.length r ai).2) * BASE ^ rest.length + valBE rest := by
              ring
        _ = (val r * BASE + ai) * BASE ^ rest.length + valBE rest := by rw [hE1]
        _ = val r * BASE ^ (rest.length + 1) + (ai * BASE ^ rest.length + valBE rest) := by
              ring
        _ = val r * BASE ^ (ai :: rest).length + valBE (ai :: rest) := by
              simp [valBE]
    · intro q hq
      have hq' : q ∈ (divStep b' b'.length r ai).1
          :: (divLoop b' b'.length rest (divStep b' b'.length r ai).2).1 := hq
      rw [List.mem_cons] at hq'
      cases hq' with
      | inl h1 => rw [h1]; exact hst1lt
      | inr h2 => exact hIq q h2

theorem divModLong_spec (a b : List ℕ) (ha : Valid a) (hb : Valid b) (hbpos : 0 < val b) :
    val (divModLong a b).1 = val a / val b ∧ Valid (divModLong a b).1 ∧
    val (divModLong a b).2 = val a % val b ∧ Valid (divModLong a b).2 := by
  obtain ⟨htp, htle, htlt⟩ := valid_getLastD b hb hbpos
  set nrm := BASE / (b.getLastD 0 + 1) with hnrmdef
  set a' := mulNat a nrm with ha'def
  set b' := mulNat b nrm with hb'def
  have hstep : divModLong a b
      = (normalize (divLoop b' b'.length a'.reverse (ofNat 0)).1.reverse,
         divNatSmall (divLoop b' b'.length a'.reverse (ofNat 0)).2 nrm) := rfl
  have hnrm_pos : 0 < nrm := by
    rw [hnrmdef]
    exact Nat.div_pos (by omega) (by omega)
  have ha'valid : Valid a' := valid_mulNat a nrm ha.1 ha.2.1
  have ha'v : val a' = val a * nrm := mulNat_val a nrm ha.2.1
  have hb'valid : Valid b' := valid_mulNat b nrm hb.1 hb.2.1
  have hb'v : val b' = val b * nrm := mulNat_val b nrm hb.2.1
  clear_value nrm a' b'
  have hb'pos : 0 < val b' := by
    rw [hb'v]
    exact Nat.mul_pos hbpos hnrm_pos
  have h0valid : Valid (ofNat 0) := valid_ofNat 0
  have h0lt : val (ofNat 0) < val b' := by
    rw [val_ofNat]
    exact hb'pos
  obtain ⟨hI, hIlt, hIv, hIq, hIlen⟩ := divLoop_spec b' hb'valid hb'pos a'.reverse (ofNat 0)
    (by
      intro d hd
      rw [List.mem_reverse] at hd
      exact ha'valid.2.1 d hd) h0valid h0lt
  rw [val_ofNat, Nat.zero_mul, Nat.zero_add, valBE_reverse] at hI
  have huniq := div_mod_unique (val a')
    (valBE (divLoop b' b'.length a'.reverse (ofNat 0)).1)
    (val (divLoop b' b'.length a'.reverse (ofNat 0)).2) (val b') hb'pos hI hIlt
  have hqval : val (normalize (divLoop b' b'.length a'.reverse (ofNat 0)).1.reverse)
      = val a' / val b' := by
    rw [val_normalize, val_reverse]
    exact huniq.1.symm
  have hqvalid : Valid (normalize (divLoop b' b'.length a'.reverse (ofNat 0)).1.reverse) := by
    refine valid_normalize _ ?_ ?_
    · intro hc
      have hlen := congrArg List.length hc
      simp only [List.length_reverse, hIlen, List.length_nil] at hlen
      have : a' = [] := List.length_eq_zero.mp (by simpa using hlen)
      exact ha'valid.1 this
    · intro d hd
      rw [List.mem_reverse] at hd
      exact hIq d hd
  have hdivq : val a' / val b' = val a / val b := by
    rw [ha'v, hb'v, Nat.mul_div_mul_right _ _ hnrm_pos]
  have hmodq : val a' % val b' = (val a % val b) * nrm := by
    rw [ha'v, hb'v, Nat.mul_mod_mul_right]
  have hrval : val (divNatSmall (divLoop b' b'.length a'.reverse (ofNat 0)).2 nrm)
      = val a % val b := by
    rw [divNatSmall_val _ nrm hnrm_pos hIv.2.1, ← huniq.2, hmodq,
      Nat.mul_div_cancel _ hnrm_pos]
  have hrvalid : Valid (divNatSmall (divLoop b' b'.length a'.reverse (ofNat 0)).2 nrm) :=
    valid_divNatSmall _ nrm hnrm_pos hIv.1 hIv.2.1
  rw [hstep]
  refine ⟨?_, hqvalid, hrval, hrvalid⟩
  rw [hqval, hdivq]

theorem divNat_spec (a : List ℕ) (num : ℕ) (ha : Valid a) (hnum : 0 < num) :
    val (divNat a num) = val a / num ∧ Valid (divNat a num) := by
  unfold divNat
  by_cases h : num < BASE
  · rw [if_pos h]
    exact ⟨divNatSmall_val a num hnum ha.2.1, valid_divNatSmall a num hnum ha.1 ha.2.1⟩
  · rw [if_neg h]
    have hofv : Valid (ofNat num) := valid_ofNat num
    have hpos : 0 < val (ofNat num) := by rw [val_ofNat]; exact hnum
    obtain ⟨h1, h2, _, _⟩ := divModLong_spec a (ofNat num) ha hofv hpos
    rw [val_ofNat] at h1
    exact ⟨h1, h2⟩

theorem div_mod_spec (a b : List ℕ) (ha : Valid a) (hb : Valid b) (hbpos : 0 < val b) :
    val (div_mod a b).1 = val a / val b ∧ val (div_mod a b).2 = val a % val b ∧
    Valid (div_mod a b).1 ∧ Valid (div_mod a b).2 := by
  unfold div_mod
  by_cases h : b.length = 1
  · obtain ⟨x, rfl⟩ : ∃ x, b = [x] := by
      cases b with
      | nil => simp at h
      | cons y ys =>
        cases ys with
        | nil => exact ⟨y, rfl⟩
        | cons z zs => simp at h
    have hxval : val [x] = x := by simp [val]
    have hxpos : 0 < x := by rw [← hxval]; exact hbpos
    rw [if_pos h]
    simp only [List.headD]
    obtain ⟨hq1, hq2⟩ := divNat_spec a x ha hxpos
    refine ⟨by rw [hq1, hxval], ?_, hq2, valid_ofNat _⟩
    rw [val_ofNat, modNat_val a x hxpos, hxval]
  · rw [if_neg h]
    obtain ⟨h1, h2, h3, h4⟩ := divModLong_spec a b ha hb hbpos
    exact ⟨h1, h3, h2, h4⟩

theorem modU_spec (a b : List ℕ) (ha : Valid a) (hb : Valid b) (hbpos : 0 < val b) :
    val (modU a b) = val a % val b ∧ Valid (modU a b) := by
  obtain ⟨_, h2, _, h4⟩ := div_mod_spec a b ha hb hbpos
  exact ⟨h2, h4⟩

theorem divU_spec (a b : List ℕ) (ha : Valid a) (hb : Valid b) (hbpos : 0 < val b) :
    val (divU a b) = val a / val b ∧ Valid (divU a b) := by
  obtain ⟨h1, _, h3, _⟩ := div_mod_spec a b ha hb hbpos
  exact ⟨h1, h3⟩

end BigU

namespace BigU

/-- The `mod == -1` branch of `pow` (lines 517-523): plain binary
exponentiation, with fuel (the exponent halves each iteration, so fuel `n`
suffices).  In each iteration `res *= a` uses the value of `a` before the
squaring `a *= a`. -/
def powNoModF : ℕ → List ℕ → ℕ → List ℕ → List ℕ
  | 0, _, _, res => res
  | f + 1, a, n, res =>
    if n = 0 then res
    else powNoModF f (multU a a) (n / 2) (if n % 2 ≠ 0 then multU res a else res)

/-- The modular branch of `pow` (lines 525-532): binary exponentiation where
after each squaring the base is reduced, `a %= mod` (the `int64_t` modulus
is converted to a `UInt` by the implicit constructor); the accumulator
`res` is never reduced.  Fuel as in `powNoModF`. -/
def powModF : ℕ → List ℕ → ℕ → ℕ → List ℕ → List ℕ
  | 0, _, _, _, res => res
  | f + 1, a, n, m, res =>
    if n = 0 then res
    else powModF f (modU (multU a a) (ofNat m)) (n / 2) m
      (if n % 2 ≠ 0 then multU res a else res)

/-- `pow(UInt a, long long n, long long mod)` (lines 515-534): `mod == -1`
selects the modulus-free branch.  A negative exponent skips both loops and
returns `1`, so `n : ℕ` is faithful for the `n ≥ 0` range the claims
quantify over; a negative `mod ≠ -1` would hit `assert(number >= 0)` in the
`UInt` constructor. -/
def powU (a : List ℕ) (n : ℕ) (mod : ℤ) : List ℕ :=
  if mod = -1 then powNoModF n a n (ofNat 1) else powModF n a n mod.toNat (ofNat 1)

/-- The loop of `gcd` (lines 496-503): `while (b != 0) { rem = a % b;
a = b; b = rem; }`, with fuel; `val b + 1` steps always suffice because
`a % b < b` strictly decreases the second operand (see `gcdU_spec`). -/
def gcdF : ℕ → List ℕ → List ℕ → List ℕ
  | 0, a, _ => a
  | f + 1, a, b => if compareL b (ofNat 0) = 0 then a else gcdF f b (modU a b)

/-- `gcd(UInt a, UInt b)` (lines 496-503). -/
def gcdU (a b : List ℕ) : List ℕ := gcdF (val b + 1) a b

/-- `operator+(const UInt& a, const int64_t b)` (line 488): `UInt(a) += b`. -/
def addIntRight (a : List ℕ) (s : ℕ) : List ℕ := addNat a s

/-- `operator+(const int64_t a, const UInt& b)` (line 489): the C++ body is
`return b * a;`, i.e. `operator*(const UInt&, int64_t)`, which is
`UInt(b) *= a` — a multiplication, not an addition. -/
def addIntLeft (s : ℕ) (b : List ℕ) : List ℕ := mulNat b s

theorem powModF_spec (f : ℕ) : ∀ a n m res, n ≤ f → Valid a → Valid res → 0 < m →
    val (powModF f a n m res) % m = (val res * val a ^ n) % m ∧
    Valid (powModF f a n m res) := by
  induction f with
  | zero =>
    intro a n m res hn ha hres hm
    interval_cases n
    show val res % m = _ ∧ Valid res
    simp [pow_zero]
    exact hres
  | succ f ih =>
    intro a n m res hn ha hres hm
    show val (if n = 0 then res
        else powModF f (modU (multU a a) (ofNat m)) (n / 2) m
          (if n % 2 ≠ 0 then multU res a else res)) % m = _ ∧
      Valid (if n = 0 then res
        else powModF f (modU (multU a a) (ofNat m)) (n / 2) m
          (if n % 2 ≠ 0 then multU res a else res))
    by_cases h0 : n = 0
    · subst h0
      rw [if_pos rfl]
      simp [pow_zero]
      exact hres
    · rw [if_neg h0]
      have hmulaa : Valid (multU a a) := valid_multU a a ha.1 ha.2.1 ha.2.1
      have hofm : Valid (ofNat m) := valid_ofNat m
      have hofmpos : 0 < val (ofNat m) := by rw [val_ofNat]; exact hm
      obtain ⟨ha'val, ha'valid⟩ := modU_spec (multU a a) (ofNat m) hmulaa hofm hofmpos
      rw [multU_val a a ha.2.1 ha.2.1, val_ofNat] at ha'val
      have hres' : Valid (if n % 2 ≠ 0 then multU res a else res) := by
        by_cases hpar : n % 2 ≠ 0
        · rw [if_pos hpar]
          exact valid_multU res a hres.1 hres.2.1 ha.2.1
        · rw [if_neg hpar]
          exact hres
      have hres'val : val (if n % 2 ≠ 0 then multU res a else res)
          = val res * val a ^ (n % 2) := by
        by_cases hpar : n % 2 ≠ 0
        · have h2 : n % 2 = 1 := by omega
          rw [if_pos hpar, multU_val res a hres.2.1 ha.2.1, h2, pow_one]
        · have h2 : n % 2 = 0 := by omega
          rw [if_neg hpar, h2, pow_zero, mul_one]
      have hn2 : n / 2 ≤ f := by
        have : n / 2 < n := Nat.div_lt_self (by omega) (by omega)
        omega
      obtain ⟨hIH, hIHvalid⟩ := ih (modU (multU a a) (ofNat m)) (n / 2) m
        (if n % 2 ≠ 0 then multU res a else res) hn2 ha'valid hres' hm
      refine ⟨?_, hIHvalid⟩
      rw [hIH, hres'val]
      have hmodeq : val (modU (multU a a) (ofNat m)) ≡ val a * val a [MOD m] := by
        rw [ha'val]
        exact Nat.mod_modEq _ m
      have hpow : val (modU (multU a a) (ofNat m)) ^ (n / 2)
          ≡ (val a * val a) ^ (n / 2) [MOD m] := hmodeq.pow _
      have hfull : val res * val a ^ (n % 2)
            * val (modU (multU a a) (ofNat m)) ^ (n / 2)
          ≡ val res * val a ^ (n % 2) * (val a * val a) ^ (n / 2) [MOD m] :=
        hpow.mul_left _
      have hexp : val res * val a ^ (n % 2) * (val a * val a) ^ (n / 2)
          = val res * val a ^ n := by
        have h1 : (val a * val a) ^ (n / 2) = val a ^ (2 * (n / 2)) := by
          rw [pow_mul]
          congr 1
          rw [sq]
        rw [h1, mul_assoc, ← pow_add]
        congr 2
        omega
      rw [← hexp]
      exact hfull

theorem powU_spec (a : List ℕ) (n m : ℕ) (ha : Valid a) (hm : 0 < m) :
    val (powU a n (m : ℤ)) % m = val a ^ n % m ∧ Valid (powU a n (m : ℤ)) := by
  unfold powU
  have hne : (m : ℤ) ≠ -1 := by
    intro hc
    omega
  rw [if_neg hne]
  have htn : (m : ℤ).toNat = m := Int.toNat_natCast m
  rw [htn]
  obtain ⟨h1, h2⟩ := powModF_spec n a n m (ofNat 1) le_rfl ha (valid_ofNat 1) hm
  rw [val_ofNat, one_mul] at h1
  exact ⟨h1, h2⟩

theorem gcdF_spec (f : ℕ) : ∀ a b, Valid a → Valid b → val b < f →
    val (gcdF f a b) = Nat.gcd (val a) (val b) ∧ Valid (gcdF f a b) := by
  induction f with
  | zero => intro a b _ _ h; omega
  | succ f ih =>
    intro a b ha hb hf
    show val (if compareL b (ofNat 0) = 0 then a else gcdF f b (modU a b)) = _ ∧
      Valid (if compareL b (ofNat 0) = 0 then a else gcdF f b (modU a b))
    have hiff : compareL b (ofNat 0) = 0 ↔ val b = 0 := by
      have := compareL_zero_iff b (ofNat 0) hb (valid_ofNat 0)
      rwa [val_ofNat] at this
    by_cases hz : compareL b (ofNat 0) = 0
    · rw [if_pos hz]
      rw [hiff.mp hz]
      simp [Nat.gcd_zero_right]
      exact ha
    · rw [if_neg hz]
      have hbpos : 0 < val b := by
        rcases Nat.eq_zero_or_pos (val b) with h0 | h1
        · exact absurd (hiff.mpr h0) hz
        · exact h1
      obtain ⟨hmval, hmvalid⟩ := modU_spec a b ha hb hbpos
      have hmlt : val (modU a b) < val b := by
        rw [hmval]
        exact Nat.mod_lt _ hbpos
      obtain ⟨hIH, hIHvalid⟩ := ih b (modU a b) hb hmvalid (by omega)
      refine ⟨?_, hIHvalid⟩
      calc val (gcdF f b (modU a b)) = Nat.gcd (val b) (val (modU a b)) := hIH
        _ = Nat.gcd (val b) (val a % val b) := by rw [hmval]
        _ = Nat.gcd (val a % val b) (val b) := Nat.gcd_comm _ _
        _ = Nat.gcd (val b) (val a) := (Nat.gcd_rec _ _).symm
        _ = Nat.gcd (val a) (val b) := Nat.gcd_comm _ _

theorem gcdU_spec (a b : List ℕ) (ha : Valid a) (hb : Valid b) :
    val (gcdU a b) = Nat.gcd (val a) (val b) ∧ Valid (gcdU a b) :=
  gcdF_spec (val b + 1) a b ha hb (by omega)

end BigU

namespace BigU

theorem log2F_fuel (f : ℕ) : ∀ n, n ≤ f → log2F f n = Nat.log 2 n := by
  induction f with
  | zero =>
    intro n hn
    interval_cases n
    rw [Nat.log_zero_right]
    rfl
  | succ f ih =>
    intro n hn
    show (if 2 ≤ n then log2F f (n / 2) + 1 else 0) = Nat.log 2 n
    by_cases h2 : 2 ≤ n
    · rw [if_pos h2]
      have hdiv : n / 2 ≤ f := by
        have : n / 2 < n := Nat.div_lt_self (by omega) (by omega)
        omega
      rw [ih (n / 2) hdiv, Nat.log_div_base 2 n]
      have hpos : 0 < Nat.log 2 n := Nat.log_pos (by omega) h2
      omega
    · rw [if_neg h2]
      interval_cases n
      · rw [Nat.log_zero_right]
      · rw [Nat.log_one_right]

theorem log2N_eq (n : ℕ) : log2N n = Nat.log 2 n := log2F_fuel n n le_rfl

theorem pow2whileF_pow2 (f : ℕ) : ∀ t j, ∃ k, pow2whileF f t (2 ^ j) = 2 ^ k := by
  induction f with
  | zero => intro t j; exact ⟨j, rfl⟩
  | succ f ih =>
    intro t j
    show ∃ k, (if 2 ^ j < t then pow2whileF f t (2 * 2 ^ j) else 2 ^ j) = 2 ^ k
    by_cases h : 2 ^ j < t
    · rw [if_pos h]
      have h2 : 2 * 2 ^ j = 2 ^ (j + 1) := by ring
      rw [h2]
      exact ih t (j + 1)
    · rw [if_neg h]
      exact ⟨j, rfl⟩

theorem pow2whileF_min (f : ℕ) : ∀ t p, pow2whileF f t p = p ∨
    ∃ q, pow2whileF f t p = 2 * q ∧ q < t := by
  induction f with
  | zero => intro t p; exact Or.inl rfl
  | succ f ih =>
    intro t p
    show (if p < t then pow2whileF f t (2 * p) else p) = p ∨
      ∃ q, (if p < t then pow2whileF f t (2 * p) else p) = 2 * q ∧ q < t
    by_cases h : p < t
    · rw [if_pos h]
      rcases ih t (2 * p) with h1 | ⟨q, hq, hqt⟩
      · exact Or.inr ⟨p, h1, h⟩
      · exact Or.inr ⟨q, hq, hqt⟩
    · rw [if_neg h]
      exact Or.inl rfl

theorem pow2while_eq_clog (t : ℕ) : pow2whileF t t 1 = 2 ^ Nat.clog 2 t := by
  by_cases ht : t ≤ 1
  · interval_cases t
    · rw [Nat.clog_zero_right]
      rfl
    · rw [Nat.clog_one_right]
      rfl
  · push_neg at ht
    obtain ⟨k, hk⟩ : ∃ k, pow2whileF t t 1 = 2 ^ k := by
      have h := pow2whileF_pow2 t t 0
      simpa using h
    have hge : t ≤ pow2whileF t t 1 := by
      apply pow2whileF_ge
      have := Nat.lt_two_pow t
      omega
    rcases pow2whileF_min t t 1 with h1 | ⟨q, hq, hqt⟩
    · omega
    · have hk1 : 1 ≤ k := by
        by_contra hc
        push_neg at hc
        interval_cases k
        omega
      have hsplit : 2 ^ k = 2 * 2 ^ (k - 1) := by
        have h2 : 2 ^ ((k - 1) + 1) = 2 * 2 ^ (k - 1) := pow_succ' 2 (k - 1)
        have h3 : (k - 1) + 1 = k := by omega
        rw [h3] at h2
        exact h2
      have hub : Nat.clog 2 t ≤ k := by
        apply (Nat.le_pow_iff_clog_le (by omega)).mp
        omega
      have hlb : k ≤ Nat.clog 2 t := by
        by_contra hc
        push_neg at hc
        have hle : t ≤ 2 ^ (k - 1) := by
          apply (Nat.le_pow_iff_clog_le (by omega)).mpr
          omega
        omega
      rw [hk]
      congr 1
      omega

theorem multSelect_iff (l1 l2 : ℕ) :
    multSelect l1 l2 = true ↔
      15 * (3 * (2 * 2 ^ Nat.clog 2 (3 * max l1 l2)) *
        Nat.log 2 (2 * 2 ^ Nat.clog 2 (3 * max l1 l2))) ≤ l1 * l2 := by
  have hp := pow2while_eq_clog (3 * max l1 l2)
  unfold multSelect padLen
  rw [decide_eq_true_eq, hp, log2N_eq]

theorem multSelect_small (l1 l2 : ℕ) (h : max l1 l2 ≤ 539) :
    multSelect l1 l2 = false := by
  rcases Nat.eq_zero_or_pos (max l1 l2) with h0 | h1
  · obtain ⟨rfl, rfl⟩ : l1 = 0 ∧ l2 = 0 := by omega
    decide
  · have hM3 : 3 * max l1 l2 ≤ 2 ^ (3 * max l1 l2) * 1 := by
      have := Nat.lt_two_pow (3 * max l1 l2)
      omega
    have hP : 3 * max l1 l2 ≤ pow2whileF (3 * max l1 l2) (3 * max l1 l2) 1 :=
      pow2whileF_ge _ _ _ hM3
    unfold multSelect padLen
    apply decide_eq_false
    rw [log2N_eq]
    intro hc
    have hlog : 2 ≤ Nat.log 2 (2 * pow2whileF (3 * max l1 l2) (3 * max l1 l2) 1) := by
      apply (Nat.pow_le_iff_le_log (by omega) (by omega)).mp
      have h4 : (2 : ℕ) ^ 2 = 4 := by norm_num
      omega
    have hl1 : l1 ≤ max l1 l2 := le_max_left _ _
    have hl2 : l2 ≤ max l1 l2 := le_max_right _ _
    have hprod : l1 * l2 ≤ 539 * max l1 l2 :=
      le_trans (Nat.mul_le_mul hl1 hl2) (Nat.mul_le_mul_right _ h)
    have hthr : 540 * max l1 l2 ≤
        15 * (3 * (2 * pow2whileF (3 * max l1 l2) (3 * max l1 l2) 1) *
          Nat.log 2 (2 * pow2whileF (3 * max l1 l2) (3 * max l1 l2) 1)) := by
      calc 540 * max l1 l2 = 15 * (3 * (6 * max l1 l2) * 2) := by ring
        _ ≤ _ := by
          apply Nat.mul_le_mul_left
          apply Nat.mul_le_mul
          · apply Nat.mul_le_mul_left
            omega
          · exact hlog
    have : 540 * max l1 l2 ≤ 539 * max l1 l2 := le_trans hthr (le_trans hc hprod)
    omega

end BigU

namespace BigU

/-- Numeric value of a decimal digit character (`'0'`-`'9'` map to 0-9). -/
def charVal (c : Char) : ℕ := c.toNat - 48

/-- `std::stoi` on a string of decimal digit characters (the groups the
string constructor passes to it have at most 9 characters, so the `int`
range is never exceeded). -/
def strVal (s : List Char) : ℕ := s.foldl (fun acc c => 10 * acc + charVal c) 0

/-- The digit-collecting part of `UInt::UInt(const std::string& s)` (lines
97-106): cut groups of `WIDTH = 9` characters from the right end of the
string and `stoi` each, least significant group first; a leftover group of
fewer than 9 characters becomes the last (most significant) stored digit.
The fuel argument (the string length always suffices) drives the recursion
on the shrinking prefix. -/
def parseF : ℕ → List Char → List ℕ
  | 0, _ => []
  | f + 1, s =>
    if s.length = 0 then []
    else if s.length ≤ 9 then [strVal s]
    else strVal (s.drop (s.length - 9)) :: parseF f (s.take (s.length - 9))

/-- `UInt::UInt(const std::string&)` (lines 97-106): group conversion
followed by `normalize()`. -/
def parseU (s : List Char) : List ℕ := normalize (parseF s.length s)

/-- Decimal digit characters of `n`, most significant first, with fuel
(`n` itself always suffices because `n < 10 ^ n`): the digit characters a
C++ stream insertion produces for a positive integer. -/
def natToCharsF : ℕ → ℕ → List Char
  | 0, _ => []
  | f + 1, n =>
    if n = 0 then [] else natToCharsF f (n / 10) ++ [Char.ofNat (48 + n % 10)]

/-- Decimal rendering of one digit group by `operator<<`: `0` prints as
`"0"`, larger values print without leading zeros. -/
def natToChars (n : ℕ) : List Char := if n = 0 then ['0'] else natToCharsF n n

/-- Left-pad a rendered group with `'0'` to a target width, the effect of
`std::setw(k)` with `std::setfill('0')`. -/
def padChars (k : ℕ) (l : List Char) : List Char :=
  List.replicate (k - l.length) '0' ++ l

/-- `std::setw(UInt::WIDTH) << std::setfill('0')` (line 443): pad to 9. -/
def pad9 (l : List Char) : List Char := padChars 9 l

/-- `operator<<(std::ostream&, const UInt&)` (lines 440-446): the most
significant digit prints unpadded, every other digit zero-padded to exactly
9 characters, most significant first.  The recursion follows the
little-endian digit list, so the head digit's group is emitted last. -/
def formatU : List ℕ → List Char
  | [] => []
  | [d] => natToChars d
  | d :: rest => formatU rest ++ pad9 (natToChars d)

theorem charToNat_inj (c d : Char) (h : c.toNat = d.toNat) : c = d := by
  rw [← Char.ofNat_toNat c, ← Char.ofNat_toNat d, h]

theorem char_of_charVal (c : Char) (h1 : 48 ≤ c.toNat) (h2 : c.toNat ≤ 57) :
    Char.ofNat (48 + charVal c) = c := by
  have he : 48 + charVal c = c.toNat := by unfold charVal; omega
  rw [he, Char.ofNat_toNat]

theorem charVal_zero_char (c : Char) (h1 : 48 ≤ c.toNat) (h2 : c.toNat ≤ 57)
    (h0 : charVal c = 0) : c = '0' := by
  apply charToNat_inj
  unfold charVal at h0
  show c.toNat = 48
  omega

theorem strVal_append (s : List Char) (c : Char) :
    strVal (s ++ [c]) = 10 * strVal s + charVal c := by
  unfold strVal
  rw [List.foldl_append]
  rfl

theorem strVal_go (b : List Char) : ∀ acc,
    List.foldl (fun acc c => 10 * acc + charVal c) acc b
      = 10 ^ b.length * acc + strVal b := by
  induction b with
  | nil => intro acc; simp [strVal]
  | cons c b ih =>
    intro acc
    show List.foldl _ (10 * acc + charVal c) b = _
    rw [ih (10 * acc + charVal c)]
    have hs : strVal (c :: b) = 10 ^ b.length * charVal c + strVal b := by
      show List.foldl _ (10 * 0 + charVal c) b = _
      rw [ih (10 * 0 + charVal c)]
      ring
    rw [hs]
    simp [List.length_cons]
    ring

theorem strVal_split (a b : List Char) :
    strVal (a ++ b) = 10 ^ b.length * strVal a + strVal b := by
  unfold strVal
  rw [List.foldl_append]
  exact strVal_go b _

theorem strVal_head_pos (c : Char) (s : List Char) (h : 0 < charVal c) :
    0 < strVal (c :: s) := by
  have h1 : strVal (c :: s) = 10 ^ s.length * strVal [c] + strVal s := by
    have := strVal_split [c] s
    simpa using this
  have h2 : strVal [c] = charVal c := by
    show 10 * 0 + charVal c = charVal c
    omega
  have h3 : 0 < 10 ^ s.length := Nat.pos_pow_of_pos _ (by omega)
  rw [h1, h2]
  have := Nat.mul_le_mul h3 h
  omega

theorem strVal_lt (s : List Char) (h : ∀ c ∈ s, charVal c ≤ 9) :
    strVal s < 10 ^ s.length := by
  induction s using List.reverseRecOn with
  | nil =>
    show (0 : ℕ) < 10 ^ (0 : ℕ)
    omega
  | append_singleton s c ih =>
    rw [strVal_append]
    have hc : charVal c ≤ 9 := h c (by simp)
    have hs : strVal s < 10 ^ s.length := ih (fun d hd => h d (by simp [hd]))
    have hl : (s ++ [c]).length = s.length + 1 := by simp
    rw [hl, pow_succ]
    omega

theorem strVal_zero_all (s : List Char) (hd : ∀ c ∈ s, 48 ≤ c.toNat ∧ c.toNat ≤ 57)
    (h : strVal s = 0) : ∀ c ∈ s, c = '0' := by
  induction s using List.reverseRecOn with
  | nil => intro c hc; simp at hc
  | append_singleton s c ih =>
    rw [strVal_append] at h
    have h1 : strVal s = 0 := by omega
    have h2 : charVal c = 0 := by omega
    intro d hdmem
    rw [List.mem_append] at hdmem
    rcases hdmem with hds | hdc
    · exact ih (fun e he => hd e (by simp [he])) h1 d hds
    · have : d = c := by simpa using hdc
      subst this
      obtain ⟨hc1, hc2⟩ := hd d (by simp)
      exact charVal_zero_char d hc1 hc2 h2

end BigU

namespace BigU

theorem natToCharsF_zero (g : ℕ) : natToCharsF g 0 = [] := by
  cases g with
  | zero => rfl
  | succ g => rfl

theorem natToCharsF_succ (f n : ℕ) (h : n ≠ 0) :
    natToCharsF (f + 1) n = natToCharsF f (n / 10) ++ [Char.ofNat (48 + n % 10)] := by
  show (if n = 0 then [] else _) = _
  rw [if_neg h]

theorem natToCharsF_fuel (f : ℕ) : ∀ g n, n ≤ f → n ≤ g →
    natToCharsF f n = natToCharsF g n := by
  induction f with
  | zero =>
    intro g n hf _
    interval_cases n
    rw [natToCharsF_zero, natToCharsF_zero]
  | succ f ih =>
    intro g n hf hg
    by_cases h0 : n = 0
    · subst h0
      rw [natToCharsF_zero, natToCharsF_zero]
    · cases g with
      | zero => omega
      | succ g =>
        rw [natToCharsF_succ f n h0, natToCharsF_succ g n h0]
        have hdiv : n / 10 < n := Nat.div_lt_self (by omega) (by omega)
        rw [ih g (n / 10) (by omega) (by omega)]

theorem natToChars_small (v : ℕ) (h : v ≤ 9) :
    natToChars v = [Char.ofNat (48 + v)] := by
  by_cases h0 : v = 0
  · subst h0
    rfl
  · unfold natToChars
    rw [if_neg h0]
    have he : natToCharsF v v = natToCharsF ((v - 1) + 1) v := by
      congr 1
      omega
    rw [he, natToCharsF_succ _ _ h0]
    have e1 : v / 10 = 0 := by omega
    have e2 : v % 10 = v := by omega
    rw [e1, e2, natToCharsF_zero]
    rfl

theorem natToChars_step (n r : ℕ) (hn : 0 < n) (hr : r ≤ 9) :
    natToChars (10 * n + r) = natToChars n ++ [Char.ofNat (48 + r)] := by
  unfold natToChars
  rw [if_neg (by omega : ¬ 10 * n + r = 0), if_neg (by omega : ¬ n = 0)]
  have e1 : natToCharsF (10 * n + r) (10 * n + r)
      = natToCharsF ((10 * n + r - 1) + 1) (10 * n + r) := by
    congr 1
    omega
  rw [e1, natToCharsF_succ _ _ (by omega)]
  have e2 : (10 * n + r) / 10 = n := by omega
  have e3 : (10 * n + r) % 10 = r := by omega
  rw [e2, e3]
  congr 1
  exact natToCharsF_fuel _ _ n (by omega) le_rfl

theorem strVal_roundtrip (s : List Char) : s ≠ [] →
    (∀ c ∈ s, 48 ≤ c.toNat ∧ c.toNat ≤ 57) →
    (natToChars (strVal s)).length ≤ s.length ∧
      padChars s.length (natToChars (strVal s)) = s := by
  induction s using List.reverseRecOn with
  | nil => intro h; exact absurd rfl h
  | append_singleton s c ih =>
    intro _ hd
    obtain ⟨hc1, hc2⟩ := hd c (by simp)
    have hcv : charVal c ≤ 9 := by unfold charVal; omega
    have hlen : (s ++ [c]).length = s.length + 1 := by simp
    have happ : strVal (s ++ [c]) = 10 * strVal s + charVal c := strVal_append s c
    have hds : ∀ e ∈ s, 48 ≤ e.toNat ∧ e.toNat ≤ 57 := fun e he => hd e (by simp [he])
    by_cases hv0 : strVal s = 0
    · have hval : strVal (s ++ [c]) = charVal c := by omega
      rw [hval, natToChars_small _ hcv, char_of_charVal c hc1 hc2, hlen]
      have hrep : s = List.replicate s.length '0' :=
        List.eq_replicate_of_mem (strVal_zero_all s hds hv0)
      constructor
      · simp
      · show List.replicate (s.length + 1 - 1) '0' ++ [c] = s ++ [c]
        have he : s.length + 1 - 1 = s.length := by omega
        rw [he, ← hrep]
    · have hsne : s ≠ [] := by
        intro hnil
        subst hnil
        exact hv0 rfl
      obtain ⟨ihlen, ihpad⟩ := ih hsne hds
      rw [happ, natToChars_step (strVal s) (charVal c) (by omega) hcv,
        char_of_charVal c hc1 hc2, hlen]
      constructor
      · rw [List.length_append]
        simp only [List.length_cons, List.length_nil]
        omega
      · unfold padChars
        rw [List.length_append]
        simp only [List.length_cons, List.length_nil]
        have he : s.length + 1 - ((natToChars (strVal s)).length + (0 + 1))
            = s.length - (natToChars (strVal s)).length := by omega
        rw [he, ← List.append_assoc]
        unfold padChars at ihpad
        rw [ihpad]

end BigU

namespace BigU

theorem natToChars_ne_nil (v : ℕ) : natToChars v ≠ [] := by
  by_cases h0 : v = 0
  · subst h0
    simp [natToChars]
  · unfold natToChars
    rw [if_neg h0]
    have he : natToCharsF v v = natToCharsF ((v - 1) + 1) v := by
      congr 1
      omega
    rw [he, natToCharsF_succ _ _ h0]
    simp

theorem roundtrip_nolead (s : List Char) (h1 : s ≠ [])
    (h2 : ∀ c ∈ s, 48 ≤ c.toNat ∧ c.toNat ≤ 57)
    (h3 : s.head? = some '0' → s = ['0']) : natToChars (strVal s) = s := by
  obtain ⟨hlen, hpad⟩ := strVal_roundtrip s h1 h2
  rcases Nat.lt_or_ge (natToChars (strVal s)).length s.length with hlt | hge
  · exfalso
    unfold padChars at hpad
    obtain ⟨m, hm⟩ : ∃ m, s.length - (natToChars (strVal s)).length = m + 1 :=
      ⟨s.length - (natToChars (strVal s)).length - 1, by omega⟩
    rw [hm, List.replicate_succ] at hpad
    have hhead : s.head? = some '0' := by
      rw [← hpad]
      rfl
    have hs0 : s = ['0'] := h3 hhead
    have : s.length = 1 := by rw [hs0]; rfl
    have hne := natToChars_ne_nil (strVal s)
    have : (natToChars (strVal s)).length ≠ 0 := by
      intro hc
      exact hne (List.eq_nil_of_length_eq_zero hc)
    omega
  · have he : s.length - (natToChars (strVal s)).length = 0 := by omega
    unfold padChars at hpad
    rw [he] at hpad
    simpa using hpad

theorem roundtrip_pad9 (s : List Char) (h9 : s.length = 9)
    (h2 : ∀ c ∈ s, 48 ≤ c.toNat ∧ c.toNat ≤ 57) :
    pad9 (natToChars (strVal s)) = s := by
  show padChars 9 _ = s
  rw [← h9]
  exact (strVal_roundtrip s (by intro hc; rw [hc] at h9; simp at h9) h2).2

theorem formatU_cons (d : ℕ) (rest : List ℕ) (h : rest ≠ []) :
    formatU (d :: rest) = formatU rest ++ pad9 (natToChars d) := by
  cases rest with
  | nil => exact absurd rfl h
  | cons e es => rfl

theorem parseF_ne_nil (f : ℕ) : ∀ s : List Char, s ≠ [] → s.length ≤ f →
    parseF f s ≠ [] := by
  induction f with
  | zero =>
    intro s h1 h2
    have : s.length = 0 := by omega
    exact absurd (List.eq_nil_of_length_eq_zero this) h1
  | succ f _ =>
    intro s h1 h2
    show (if s.length = 0 then [] else if s.length ≤ 9 then [strVal s]
      else strVal (s.drop (s.length - 9)) :: parseF f (s.take (s.length - 9))) ≠ []
    have h0 : s.length ≠ 0 := by
      intro hc
      exact h1 (List.eq_nil_of_length_eq_zero hc)
    rw [if_neg h0]
    by_cases h9 : s.length ≤ 9
    · rw [if_pos h9]
      simp
    · rw [if_neg h9]
      simp

theorem parseF_val (f : ℕ) : ∀ s : List Char, s.length ≤ f →
    val (parseF f s) = strVal s := by
  induction f with
  | zero =>
    intro s h
    have : s = [] := List.eq_nil_of_length_eq_zero (by omega)
    subst this
    rfl
  | succ f ih =>
    intro s h
    show val (if s.length = 0 then [] else if s.length ≤ 9 then [strVal s]
      else strVal (s.drop (s.length - 9)) :: parseF f (s.take (s.length - 9)))
      = strVal s
    by_cases h0 : s.length = 0
    · rw [if_pos h0]
      have : s = [] := List.eq_nil_of_length_eq_zero h0
      subst this
      rfl
    · rw [if_neg h0]
      by_cases h9 : s.length ≤ 9
      · rw [if_pos h9]
        show strVal s + BASE * 0 = strVal s
        omega
      · rw [if_neg h9]
        have hprelen : (s.take (s.length - 9)).length = s.length - 9 := by
          rw [List.length_take]
          omega
        have hlowlen : (s.drop (s.length - 9)).length = 9 := by
          rw [List.length_drop]
          omega
        show strVal (s.drop (s.length - 9)) + BASE * val (parseF f (s.take (s.length - 9)))
          = strVal s
        rw [ih (s.take (s.length - 9)) (by omega)]
        conv_rhs => rw [← List.take_append_drop (s.length - 9) s]
        rw [strVal_split, hlowlen]
        have hB : (10 : ℕ) ^ 9 = BASE := by norm_num [BASE]
        rw [hB]
        ring

theorem parseF_bounds (f : ℕ) : ∀ s : List Char,
    (∀ c ∈ s, 48 ≤ c.toNat ∧ c.toNat ≤ 57) → ∀ d ∈ parseF f s, d < BASE := by
  induction f with
  | zero => intro s _ d hd; simp [parseF] at hd
  | succ f ih =>
    intro s h2 d hd
    have hcv : ∀ c ∈ s, charVal c ≤ 9 := by
      intro c hc
      have := h2 c hc
      unfold charVal
      omega
    have hBpow : ∀ k : ℕ, k ≤ 9 → (10 : ℕ) ^ k ≤ BASE := by
      intro k hk
      have h1 : (10 : ℕ) ^ k ≤ 10 ^ 9 := Nat.pow_le_pow_right (by omega) hk
      have h2 : (10 : ℕ) ^ 9 = BASE := by norm_num [BASE]
      omega
    rw [show parseF (f + 1) s = if s.length = 0 then []
      else if s.length ≤ 9 then [strVal s]
      else strVal (s.drop (s.length - 9)) :: parseF f (s.take (s.length - 9)) from rfl]
      at hd
    by_cases h0 : s.length = 0
    · rw [if_pos h0] at hd
      simp at hd
    · rw [if_neg h0] at hd
      by_cases h9 : s.length ≤ 9
      · rw [if_pos h9] at hd
        have : d = strVal s := by simpa using hd
        subst this
        have := strVal_lt s hcv
        have := hBpow s.length h9
        omega
      · rw [if_neg h9] at hd
        rcases List.mem_cons.mp hd with hlow | hrec
        · subst hlow
          have hlowlen : (s.drop (s.length - 9)).length = 9 := by
            rw [List.length_drop]
            omega
          have hlt := strVal_lt (s.drop (s.length - 9))
            (fun c hc => hcv c (List.mem_of_mem_drop hc))
          rw [hlowlen] at hlt
          have := hBpow 9 le_rfl
          omega
        · exact ih (s.take (s.length - 9))
            (fun c hc => h2 c (List.mem_of_mem_take hc)) d hrec

end BigU

namespace BigU

theorem valid_parseF (f : ℕ) : ∀ s : List Char, s.length ≤ f → s ≠ [] →
    (∀ c ∈ s, 48 ≤ c.toNat ∧ c.toNat ≤ 57) → (s.head? = some '0' → s = ['0']) →
    Valid (parseF f s) := by
  induction f with
  | zero =>
    intro s h1 h2 _ _
    exact absurd (List.eq_nil_of_length_eq_zero (by omega)) h2
  | succ f ih =>
    intro s hf h1 h2 h3
    refine ⟨parseF_ne_nil (f + 1) s h1 hf, parseF_bounds (f + 1) s h2, ?_⟩
    have h0 : s.length ≠ 0 := by
      intro hc
      exact h1 (List.eq_nil_of_length_eq_zero hc)
    rw [show parseF (f + 1) s = if s.length = 0 then []
      else if s.length ≤ 9 then [strVal s]
      else strVal (s.drop (s.length - 9)) :: parseF f (s.take (s.length - 9)) from rfl,
      if_neg h0]
    by_cases h9 : s.length ≤ 9
    · rw [if_pos h9]
      intro hlast
      have : strVal s = 0 := by simpa using hlast
      rw [this]
    · rw [if_neg h9]
      intro hlast
      exfalso
      obtain ⟨c, s', rfl⟩ := List.exists_cons_of_ne_nil h1
      have hL : (c :: s').length = s'.length + 1 := by simp
      have htake : (c :: s').take ((c :: s').length - 9)
          = c :: s'.take ((c :: s').length - 10) := by
        have he : (c :: s').length - 9 = ((c :: s').length - 10) + 1 := by omega
        rw [he, List.take_succ_cons]
      have hpre_ne : (c :: s').take ((c :: s').length - 9) ≠ [] := by
        rw [htake]
        simp
      have hpre_len : ((c :: s').take ((c :: s').length - 9)).length
          = (c :: s').length - 9 := by
        rw [List.length_take]
        omega
      have hrest_ne : parseF f ((c :: s').take ((c :: s').length - 9)) ≠ [] :=
        parseF_ne_nil f _ hpre_ne (by omega)
      obtain ⟨e, es, hes⟩ := List.exists_cons_of_ne_nil hrest_ne
      rw [hes] at hlast
      rw [List.getLast?_cons_cons] at hlast
      rw [← hes] at hlast
      have hc0 : c ≠ '0' := by
        intro hcc
        subst hcc
        have : (('0' : Char) :: s') = ['0'] := h3 rfl
        have : s' = [] := by simpa using this
        subst this
        simp at h9
      have hcv : 0 < charVal c := by
        obtain ⟨hd1, hd2⟩ := h2 c (by simp)
        unfold charVal
        have : c.toNat ≠ 48 := by
          intro hc48
          exact hc0 (charToNat_inj c '0' hc48)
        omega
      have hvpos : 0 < strVal ((c :: s').take ((c :: s').length - 9)) := by
        rw [htake]
        exact strVal_head_pos c _ hcv
      have hvv : val (parseF f ((c :: s').take ((c :: s').length - 9)))
          = strVal ((c :: s').take ((c :: s').length - 9)) :=
        parseF_val f _ (by omega)
      have hvalid : Valid (parseF f ((c :: s').take ((c :: s').length - 9))) := by
        apply ih _ (by omega) hpre_ne
          (fun d hd => h2 d (List.mem_of_mem_take hd))
        intro hhead
        exfalso
        rw [htake] at hhead
        have : c = '0' := by simpa using hhead
        exact hc0 this
      have : parseF f ((c :: s').take ((c :: s').length - 9)) = [0] :=
        hvalid.2.2 hlast
      rw [this] at hvv
      have : val [0] = 0 := by simp [val]
      omega

theorem valid_parseU (s : List Char) (h1 : s ≠ [])
    (h2 : ∀ c ∈ s, 48 ≤ c.toNat ∧ c.toNat ≤ 57) : Valid (parseU s) :=
  valid_normalize _ (parseF_ne_nil s.length s h1 le_rfl) (parseF_bounds s.length s h2)

theorem parseU_eq (s : List Char) (h1 : s ≠ [])
    (h2 : ∀ c ∈ s, 48 ≤ c.toNat ∧ c.toNat ≤ 57)
    (h3 : s.head? = some '0' → s = ['0']) : parseU s = parseF s.length s :=
  normalize_eq_self _ (valid_parseF s.length s le_rfl h1 h2 h3)

theorem formatU_parseF (f : ℕ) : ∀ s : List Char, s.length ≤ f → s ≠ [] →
    (∀ c ∈ s, 48 ≤ c.toNat ∧ c.toNat ≤ 57) → (s.head? = some '0' → s = ['0']) →
    formatU (parseF f s) = s := by
  induction f with
  | zero =>
    intro s hf h1 _ _
    exact absurd (List.eq_nil_of_length_eq_zero (by omega)) h1
  | succ f ih =>
    intro s hf h1 h2 h3
    have h0 : s.length ≠ 0 := by
      intro hc
      exact h1 (List.eq_nil_of_length_eq_zero hc)
    rw [show parseF (f + 1) s = if s.length = 0 then []
      else if s.length ≤ 9 then [strVal s]
      else strVal (s.drop (s.length - 9)) :: parseF f (s.take (s.length - 9)) from rfl,
      if_neg h0]
    by_cases h9 : s.length ≤ 9
    · rw [if_pos h9]
      show natToChars (strVal s) = s
      exact roundtrip_nolead s h1 h2 h3
    · rw [if_neg h9]
      obtain ⟨c, s', rfl⟩ := List.exists_cons_of_ne_nil h1
      have hL : (c :: s').length = s'.length + 1 := by simp
      have htake : (c :: s').take ((c :: s').length - 9)
          = c :: s'.take ((c :: s').length - 10) := by
        have he : (c :: s').length - 9 = ((c :: s').length - 10) + 1 := by omega
        rw [he, List.take_succ_cons]
      have hpre_ne : (c :: s').take ((c :: s').length - 9) ≠ [] := by
        rw [htake]
        simp
      have hpre_len : ((c :: s').take ((c :: s').length - 9)).length
          = (c :: s').length - 9 := by
        rw [List.length_take]
        omega
      have hrest_ne : parseF f ((c :: s').take ((c :: s').length - 9)) ≠ [] :=
        parseF_ne_nil f _ hpre_ne (by omega)
      rw [formatU_cons _ _ hrest_ne]
      have hlowlen : ((c :: s').drop ((c :: s').length - 9)).length = 9 := by
        rw [List.length_drop]
        omega
      have hpad : pad9 (natToChars (strVal ((c :: s').drop ((c :: s').length - 9))))
          = (c :: s').drop ((c :: s').length - 9) :=
        roundtrip_pad9 _ hlowlen (fun d hd => h2 d (List.mem_of_mem_drop hd))
      have hpre_head : ((c :: s').take ((c :: s').length - 9)).head? = some '0'
          → (c :: s').take ((c :: s').length - 9) = ['0'] := by
        intro hhead
        exfalso
        rw [htake] at hhead
        have hcc : c = '0' := by simpa using hhead
        subst hcc
        have : (('0' : Char) :: s') = ['0'] := h3 rfl
        have : s' = [] := by simpa using this
        subst this
        simp at h9
      have hih : formatU (parseF f ((c :: s').take ((c :: s').length - 9)))
          = (c :: s').take ((c :: s').length - 9) :=
        ih _ (by omega) hpre_ne (fun d hd => h2 d (List.mem_of_mem_take hd)) hpre_head
      rw [hih, hpad, List.take_append_drop]

end BigU

namespace BigU

/-- Claim C1: division identity — for valid operands with `b > 0`, `div_mod`
(the single-digit-divisor fast path and the normalized multi-digit long
division alike, dispatched inside `div_mod`) returns a quotient `q` and a
remainder `r` with `q * b + r = a` and `r < b`. -/
theorem claim_C1_division_identity (a b : List ℕ) (ha : Valid a) (hb : Valid b)
    (hbpos : 0 < val b) :
    val (div_mod a b).1 * val b + val (div_mod a b).2 = val a ∧
    val (div_mod a b).2 < val b := by
  obtain ⟨hq, hr, _, _⟩ := div_mod_spec a b ha hb hbpos
  constructor
  · rw [hq, hr]
    exact Nat.div_add_mod' (val a) (val b)
  · rw [hr]
    exact Nat.mod_lt _ hbpos

theorem claim_C1_witness :
    val (div_mod (ofNat 2000000001) (ofNat 7)).1 * val (ofNat 7)
        + val (div_mod (ofNat 2000000001) (ofNat 7)).2 = val (ofNat 2000000001) ∧
      val (div_mod (ofNat 2000000001) (ofNat 7)).2 < val (ofNat 7) :=
  claim_C1_division_identity (ofNat 2000000001) (ofNat 7)
    (by decide) (by decide) (by decide)

/-- Claim C2: multiplier equivalence.  The C++ `fast_mult` evaluates the
convolution with `double`-precision FFTs and rounds; floating-point rounding
lies outside this integer embedding, which renders the spectral path as the
exact convolution it approximates (`fastAux`).  Under that exact-arithmetic
idealization the two multipliers coincide on all valid operands — the
rounding-error half of the claim is what remains unstatable here. -/
theorem claim_C2_multiplier_equivalence (a b : List ℕ) (ha : Valid a) (hb : Valid b) :
    fast_mult a b = slow_mult a b := by
  apply valid_unique
  · exact valid_fast_mult a b ha.1 ha.2.1
  · exact valid_slow_mult a b ha.1 ha.2.1 hb.2.1
  · rw [fast_mult_val a b ha.2.1 hb.2.1, slow_mult_val a b ha.2.1 hb.2.1]

theorem claim_C2_witness :
    fast_mult (ofNat 1000000002) (ofNat 3000000005)
      = slow_mult (ofNat 1000000002) (ofNat 3000000005) :=
  claim_C2_multiplier_equivalence (ofNat 1000000002) (ofNat 3000000005)
    (by decide) (by decide)

/-- Claim C3 (corrected): the literal claim `pow(a, n, m) == pow(a % m, n, m)`
is false — `pow` never reduces its accumulator, so the two sides can differ
as digit vectors (see the counterexample).  What holds is the congruence:
pre-reducing the base never changes the result modulo `m`. -/
theorem claim_C3_pow_mod_reduction (a : List ℕ) (n m : ℕ) (ha : Valid a)
    (hm : 0 < m) :
    val (powU a n (m : ℤ)) % m = val (powU (ofNat (modNat a m)) n (m : ℤ)) % m := by
  rw [(powU_spec a n m ha hm).1,
    (powU_spec (ofNat (modNat a m)) n m (valid_ofNat _) hm).1,
    val_ofNat, modNat_val a m hm]
  exact ((Nat.mod_modEq (val a) m).pow n).symm

theorem claim_C3_witness :
    val (powU (ofNat 5) 2 ((3 : ℕ) : ℤ)) % 3
      = val (powU (ofNat (modNat (ofNat 5) 3)) 2 ((3 : ℕ) : ℤ)) % 3 :=
  claim_C3_pow_mod_reduction (ofNat 5) 2 3 (by decide) (by decide)

/-- Claim C3 counterexample: `pow(2, 1, 2)` returns the unreduced `2` while
`pow(2 % 2, 1, 2)` returns `0`, so the two calls are different `UInt`s. -/
theorem claim_C3_counterexample :
    powU (ofNat 2) 1 ((2 : ℕ) : ℤ) ≠ powU (ofNat (modNat (ofNat 2) 2)) 1 ((2 : ℕ) : ℤ) := by
  decide

/-- Claim C4 (code bug): `operator+(const UInt&, int64_t)` adds, but
`operator+(int64_t, const UInt&)` (line 489) is written `return b * a;` and
multiplies.  So `x + s` is the sum while `s + x` is the product — on
`s = 2, x = 3` the left-scalar form yields `6` instead of `5` — and scalar
addition is not addition in both operand orders as claimed. -/
theorem claim_C4_scalar_add_bug (x : List ℕ) (s : ℕ) (hx : Valid x) :
    val (addIntRight x s) = val x + s ∧
    val (addIntLeft s x) = val x * s ∧
    addIntRight (ofNat 3) 2 = ofNat 5 ∧
    addIntLeft 2 (ofNat 3) = ofNat 6 :=
  ⟨addNat_val x s, mulNat_val x s hx.2.1, by decide, by decide⟩

theorem claim_C4_witness :
    val (addIntRight (ofNat 3) 2) = val (ofNat 3) + 2 ∧
    val (addIntLeft 2 (ofNat 3)) = val (ofNat 3) * 2 ∧
    addIntRight (ofNat 3) 2 = ofNat 5 ∧
    addIntLeft 2 (ofNat 3) = ofNat 6 :=
  claim_C4_scalar_add_bug (ofNat 3) 2 (by decide)

/-- Claim C5: the representation invariant (`Valid`: non-empty digit list, no
most-significant zero digit unless the value is zero, every digit in
`[0, BASE)`) holds after every constructor — from native integer, from
decimal string, from raw digit vector — and after every arithmetic
operation of the embedding. -/
theorem claim_C5_invariant :
    (∀ n, Valid (ofNat n)) ∧
    (∀ s : List Char, s ≠ [] → (∀ c ∈ s, 48 ≤ c.toNat ∧ c.toNat ≤ 57) →
      Valid (parseU s)) ∧
    (∀ v, v ≠ [] → (∀ d ∈ v, d < BASE) → Valid (ofVec v)) ∧
    (∀ a b, Valid a → Valid b → Valid (addUInt a b)) ∧
    (∀ a n, Valid a → Valid (addNat a n)) ∧
    (∀ a b, Valid a → Valid b → Valid (subUInt a b)) ∧
    (∀ a n, Valid a → Valid (subNat a n)) ∧
    (∀ a b, Valid a → Valid b → Valid (multU a b)) ∧
    (∀ a n, Valid a → Valid (mulNat a n)) ∧
    (∀ a b, Valid a → Valid b → 0 < val b →
      Valid (div_mod a b).1 ∧ Valid (div_mod a b).2) ∧
    (∀ a n, Valid a → 0 < n → Valid (divNat a n)) ∧
    (∀ a b, Valid a → Valid b → Valid (gcdU a b)) ∧
    (∀ (a : List ℕ) (n m : ℕ), Valid a → 0 < m → Valid (powU a n (m : ℤ))) :=
  ⟨valid_ofNat, fun s h1 h2 => valid_parseU s h1 h2,
    fun v h1 h2 => valid_normalize v h1 h2,
    fun a b ha _ => valid_addUInt a b ha.1 ha.2.1,
    fun a n ha => valid_addNat a n ha.1 ha.2.1,
    fun a b ha hb => valid_subUInt a b ha.1 ha.2.1 hb.2.1,
    fun a n ha => valid_subNat a n ha.1 ha.2.1,
    fun a b ha hb => valid_multU a b ha.1 ha.2.1 hb.2.1,
    fun a n ha => valid_mulNat a n ha.1 ha.2.1,
    fun a b ha hb hp =>
      ⟨(div_mod_spec a b ha hb hp).2.2.1, (div_mod_spec a b ha hb hp).2.2.2⟩,
    fun a n ha hn => (divNat_spec a n ha hn).2,
    fun a b ha hb => (gcdU_spec a b ha hb).2,
    fun a n m ha hm => (powU_spec a n m ha hm).2⟩

theorem claim_C5_witness : Valid (multU (ofNat 1000000001) (ofNat 77)) :=
  claim_C5_invariant.2.2.2.2.2.2.2.1 (ofNat 1000000001) (ofNat 77)
    (by decide) (by decide)

/-- Claim C6: decimal round-trip — parsing a non-empty decimal string
without leading zeros with the string constructor and printing the result
with `operator<<` (top digit unpadded, every further digit zero-padded to 9
characters) reproduces the string exactly. -/
theorem claim_C6_roundtrip (s : List Char) (h1 : s ≠ [])
    (h2 : ∀ c ∈ s, 48 ≤ c.toNat ∧ c.toNat ≤ 57)
    (h3 : s.head? = some '0' → s = ['0']) :
    formatU (parseU s) = s := by
  rw [parseU_eq s h1 h2 h3]
  exact formatU_parseF s.length s le_rfl h1 h2 h3

theorem claim_C6_witness :
    formatU (parseU ['1','2','3','4','5','6','7','8','9','0','1','2'])
      = ['1','2','3','4','5','6','7','8','9','0','1','2'] :=
  claim_C6_roundtrip ['1','2','3','4','5','6','7','8','9','0','1','2']
    (by decide) (by decide) (by decide)

/-- Claim C7: comparator consistency — the three-way `compare` (longer digit
vector wins, lexicographic from the most significant digit on equal length)
matches the numeric order of valid operands, and the six derived boolean
operators agree with the corresponding numeric relations. -/
theorem claim_C7_comparator (a b : List ℕ) (ha : Valid a) (hb : Valid b) :
    (compareL a b < 0 ↔ val a < val b) ∧
    (compareL a b = 0 ↔ val a = val b) ∧
    (0 < compareL a b ↔ val b < val a) ∧
    (ltU a b = true ↔ val a < val b) ∧
    (gtU a b = true ↔ val b < val a) ∧
    (leU a b = true ↔ val a ≤ val b) ∧
    (geU a b = true ↔ val b ≤ val a) ∧
    (eqU a b = true ↔ val a = val b) ∧
    (neU a b = true ↔ val a ≠ val b) := by
  have h := compareL_spec a b ha hb
  unfold ltU gtU leU geU eqU neU
  simp only [decide_eq_true_eq, gt_iff_lt, ge_iff_le, ne_eq]
  rcases h with ⟨h1, h2⟩ | ⟨h1, h2⟩ | ⟨h1, h2⟩ <;>
    refine ⟨?_, ?_, ?_, ?_, ?_, ?_, ?_, ?_, ?_⟩ <;> constructor <;> intro hh <;> omega

theorem claim_C7_witness :
    (compareL (ofNat 5) (ofNat 1000000001) < 0 ↔ val (ofNat 5) < val (ofNat 1000000001)) ∧
    (compareL (ofNat 5) (ofNat 1000000001) = 0 ↔ val (ofNat 5) = val (ofNat 1000000001)) ∧
    (0 < compareL (ofNat 5) (ofNat 1000000001) ↔ val (ofNat 1000000001) < val (ofNat 5)) ∧
    (ltU (ofNat 5) (ofNat 1000000001) = true ↔ val (ofNat 5) < val (ofNat 1000000001)) ∧
    (gtU (ofNat 5) (ofNat 1000000001) = true ↔ val (ofNat 1000000001) < val (ofNat 5)) ∧
    (leU (ofNat 5) (ofNat 1000000001) = true ↔ val (ofNat 5) ≤ val (ofNat 1000000001)) ∧
    (geU (ofNat 5) (ofNat 1000000001) = true ↔ val (ofNat 1000000001) ≤ val (ofNat 5)) ∧
    (eqU (ofNat 5) (ofNat 1000000001) = true ↔ val (ofNat 5) = val (ofNat 1000000001)) ∧
    (neU (ofNat 5) (ofNat 1000000001) = true ↔ val (ofNat 5) ≠ val (ofNat 1000000001)) :=
  claim_C7_comparator (ofNat 5) (ofNat 1000000001) (by decide) (by decide)

end BigU

namespace BigU

/-- Claim C8: multiplication crossover — for multi-digit operands `mult`
returns the spectral product exactly when the schoolbook estimate
`len1 * len2` is at least 15 times the spectral estimate
`3 * pow * log2(pow)`, where `pow` (written below through `Nat.clog`) is
twice the smallest power of two that is at least `3 * max(len1, len2)`; it
returns the schoolbook product otherwise, and operands whose larger length
is at most 539 always take the schoolbook path. -/
theorem claim_C8_selector (a b : List ℕ) (ha : 1 < a.length) (hb : 1 < b.length) :
    multU a b =
      (if 15 * (3 * (2 * 2 ^ Nat.clog 2 (3 * max a.length b.length)) *
          Nat.log 2 (2 * 2 ^ Nat.clog 2 (3 * max a.length b.length)))
          ≤ a.length * b.length
        then fastAux a b else slowAux a b) ∧
    (max a.length b.length ≤ 539 → multU a b = slowAux a b) := by
  have hb1 : b.length ≠ 1 := by omega
  have hfast : fast_mult a b = fastAux a b := by
    unfold fast_mult
    rw [if_neg hb1]
  have hslow : slow_mult a b = slowAux a b := by
    unfold slow_mult
    rw [if_neg hb1]
  constructor
  · by_cases hc : 15 * (3 * (2 * 2 ^ Nat.clog 2 (3 * max a.length b.length)) *
        Nat.log 2 (2 * 2 ^ Nat.clog 2 (3 * max a.length b.length)))
        ≤ a.length * b.length
    · rw [if_pos hc]
      have hsel : multSelect a.length b.length = true := (multSelect_iff _ _).mpr hc
      show (if multSelect a.length b.length then fast_mult a b else slow_mult a b)
        = fastAux a b
      rw [hsel]
      simpa using hfast
    · rw [if_neg hc]
      have hsel : multSelect a.length b.length = false := by
        rcases Bool.eq_false_or_eq_true (multSelect a.length b.length) with h | h
        · exact absurd ((multSelect_iff _ _).mp h) hc
        · exact h
      show (if multSelect a.length b.length then fast_mult a b else slow_mult a b)
        = slowAux a b
      rw [hsel]
      simpa using hslow
  · intro hsmall
    have hsel : multSelect a.length b.length = false := multSelect_small _ _ hsmall
    show (if multSelect a.length b.length then fast_mult a b else slow_mult a b)
      = slowAux a b
    rw [hsel]
    simpa using hslow

theorem claim_C8_witness :
    multU (ofNat 1000000001) (ofNat 2000000003) =
      (if 15 * (3 * (2 * 2 ^ Nat.clog 2
            (3 * max (ofNat 1000000001).length (ofNat 2000000003).length)) *
          Nat.log 2 (2 * 2 ^ Nat.clog 2
            (3 * max (ofNat 1000000001).length (ofNat 2000000003).length)))
          ≤ (ofNat 1000000001).length * (ofNat 2000000003).length
        then fastAux (ofNat 1000000001) (ofNat 2000000003)
        else slowAux (ofNat 1000000001) (ofNat 2000000003)) ∧
    (max (ofNat 1000000001).length (ofNat 2000000003).length ≤ 539 →
      multU (ofNat 1000000001) (ofNat 2000000003)
        = slowAux (ofNat 1000000001) (ofNat 2000000003)) :=
  claim_C8_selector (ofNat 1000000001) (ofNat 2000000003) (by decide) (by decide)

/-- Claim C9: gcd — the Euclidean loop terminates (the fuel `val b + 1` of
`gcdU` always suffices, because each step replaces the second operand by
`a mod b < b`) and returns the greatest common divisor; in particular
`gcd a 0 = a`, the result divides both operands, and for `b > 0` the
recurrence `gcd a b = gcd b (a mod b)` holds. -/
theorem claim_C9_gcd (a b : List ℕ) (ha : Valid a) (hb : Valid b) :
    val (gcdU a b) = Nat.gcd (val a) (val b) ∧
    val (gcdU a b) ∣ val a ∧ val (gcdU a b) ∣ val b ∧
    (val b = 0 → gcdU a b = a) ∧
    (0 < val b → val (gcdU a b) = Nat.gcd (val b) (val a % val b)) := by
  obtain ⟨hval, _⟩ := gcdU_spec a b ha hb
  refine ⟨hval, ?_, ?_, ?_, ?_⟩
  · rw [hval]
    exact Nat.gcd_dvd_left _ _
  · rw [hval]
    exact Nat.gcd_dvd_right _ _
  · intro h0
    unfold gcdU
    rw [h0]
    have hcmp : compareL b (ofNat 0) = 0 := by
      rw [compareL_zero_iff b (ofNat 0) hb (valid_ofNat 0), val_ofNat]
      exact h0
    show (if compareL b (ofNat 0) = 0 then a else gcdF 0 b (modU a b)) = a
    rw [if_pos hcmp]
  · intro _
    rw [hval]
    calc Nat.gcd (val a) (val b) = Nat.gcd (val b) (val a) := Nat.gcd_comm _ _
      _ = Nat.gcd (val a % val b) (val b) := Nat.gcd_rec _ _
      _ = Nat.gcd (val b) (val a % val b) := Nat.gcd_comm _ _

theorem claim_C9_witness :
    val (gcdU (ofNat 12) (ofNat 8)) = Nat.gcd (val (ofNat 12)) (val (ofNat 8)) ∧
    val (gcdU (ofNat 12) (ofNat 8)) ∣ val (ofNat 12) ∧
    val (gcdU (ofNat 12) (ofNat 8)) ∣ val (ofNat 8) ∧
    (val (ofNat 8) = 0 → gcdU (ofNat 12) (ofNat 8) = ofNat 12) ∧
    (0 < val (ofNat 8) → val (gcdU (ofNat 12) (ofNat 8))
      = Nat.gcd (val (ofNat 8)) (val (ofNat 12) % val (ofNat 8))) :=
  claim_C9_gcd (ofNat 12) (ofNat 8) (by decide) (by decide)

/-- Claim C10: `pow(a, n, m)` is congruent to `a ^ n` modulo `m`, but the
returned value is not itself reduced modulo `m` — the accumulator
multiplication `res *= a` is never followed by a reduction; in particular
`pow(a, 1, m)` returns the value of `a` unchanged even when `a ≥ m`. -/
theorem claim_C10_pow_congruent_unreduced (a : List ℕ) (n m : ℕ) (ha : Valid a)
    (hm : 0 < m) :
    val (powU a n (m : ℤ)) % m = val a ^ n % m ∧
    val (powU a 1 (m : ℤ)) = val a := by
  refine ⟨(powU_spec a n m ha hm).1, ?_⟩
  have hne : (m : ℤ) ≠ -1 := by omega
  have he : powU a 1 (m : ℤ) = multU (ofNat 1) a := by
    unfold powU
    rw [if_neg hne]
    rfl
  rw [he, multU_val (ofNat 1) a (valid_ofNat 1).2.1 ha.2.1, val_ofNat, one_mul]

theorem claim_C10_witness :
    val (powU (ofNat 7) 4 ((3 : ℕ) : ℤ)) % 3 = val (ofNat 7) ^ 4 % 3 ∧
    val (powU (ofNat 7) 1 ((3 : ℕ) : ℤ)) = val (ofNat 7) :=
  claim_C10_pow_congruent_unreduced (ofNat 7) 4 3 (by decide) (by decide)

end BigU
